import Mathlib

set_option exponentiation.threshold 512
set_option maxRecDepth 100000

/-!
# X448 ladders (vendored circl `dh/x448/curve.go`) and named-location deletion

Shallow embedding of `ladderJoye`, `ladderMontgomery`, `toAffine` and
`lowOrderPoints` from `curve.go`, and of `namedLocationResourceDelete` from
`named_location_resource.go`.

Byte buffers (`Key`, `fp.Elt`) are lists of naturals; a well-formed buffer has
56 entries, each below 256.  The helpers that `curve.go` calls but does not
define (`diffAdd`, `double`, `ladderStep`, `tableGenerator` and the `fp`
package) are fields of the structure `Helpers`, so that every statement about
the control flow of the ladders holds for all of them.

The statements about the values `ladderMontgomery` and `toAffine` compute need
the arithmetic of the missing helpers: `fpSpec` and `ladderStepSpec` model the
package `fp` and `ladderStep` from the spec (arithmetic modulo
`p = 2^448 - 2^224 - 1`, conditional swap, combined differential addition and
doubling on `v^2 = u^3 + 156326*u^2 + u`).  The ladder is then related to the
group of points of the curve over `ZMod p`, whose primality is proved by a
Pratt certificate.
-/

namespace X448

/-- Size in bytes of a key and of a field element (`Size`, `fp.Size`). -/
def Size : Nat := 56

/-- The type `Key` of the source: `[Size]byte`. -/
abbrev Key := List Nat

/-- The type `fp.Elt` of the source: `[fp.Size]byte`. -/
abbrev Elt := List Nat

/-- Well-formedness of a 56-byte buffer: 56 entries, each a byte. -/
def IsKey (k : List Nat) : Prop := k.length = Size ∧ ∀ b ∈ k, b < 256

instance (k : List Nat) : Decidable (IsKey k) := by
  unfold IsKey; exact inferInstance

/-- Clamped scalar: the two lowest bits of byte 0 are 0, the highest bit of byte 55 is 1. -/
def IsClamped (k : Key) : Prop :=
  IsKey k ∧ k.getD 0 0 % 4 = 0 ∧ 128 ≤ k.getD 55 0

instance (k : Key) : Decidable (IsClamped k) := by
  unfold IsClamped; exact inferInstance

/-- The integer a byte buffer encodes, little-endian. -/
def leValue : List Nat → Nat
  | [] => 0
  | b :: bs => b + 256 * leValue bs

/-- The array `w` of five field elements used by both ladders (`[5]fp.Elt`). -/
structure W where
  w0 : Elt
  w1 : Elt
  w2 : Elt
  w3 : Elt
  w4 : Elt
deriving DecidableEq, Repr

/-- The zero value of `fp.Elt`: 56 zero bytes. -/
def zeroElt : Elt := List.replicate Size 0

/-- The zero value `[5]fp.Elt{}`. -/
def zeroW : W := ⟨zeroElt, zeroElt, zeroElt, zeroElt, zeroElt⟩

/-- The built-in `copy(dst, src)` of Go on byte slices: the first
`min (len dst) (len src)` bytes of `dst` are overwritten. -/
def copy (dst src : List Nat) : List Nat :=
  src.take dst.length ++ dst.drop (min src.length dst.length)

/-- The slice expression `t[lo:hi]`. -/
def slice (t : List Nat) (lo hi : Nat) : List Nat := (t.take hi).drop lo

/-- The functions of the package `fp` that `curve.go` calls; the package is not part of
the sources at hand. -/
structure Fp where
  /-- The value stored by `fp.SetOne`. -/
  one : Elt
  /-- The value `fp.Inv(z, x)` stores in `z`. -/
  Inv : Elt → Elt
  /-- The value `fp.Mul(z, x, y)` stores in `z`. -/
  Mul : Elt → Elt → Elt
  /-- The bytes `fp.ToBytes(b, x)` writes to `b`. -/
  ToBytes : Elt → List Nat

/-- What `curve.go` uses and does not define: the package `fp`, the table and the three
curve steps. -/
structure Helpers extends Fp where
  /-- The table `tableGenerator` (a byte array). -/
  tableGenerator : List Nat
  /-- The step `diffAdd(&w, b)`. -/
  diffAdd : W → Nat → W
  /-- The doubling `double(&x, &z)`: the new values of `x` and `z`. -/
  double : Elt → Elt → Elt × Elt
  /-- The step `ladderStep(&w, b)`. -/
  ladderStep : W → Nat → W

/-- Ghost record of the helper calls made by a ladder, in program order. -/
inductive Event where
  | diffAdd (b : Nat)
  | double
  | ladderStep (b : Nat)
  | toAffine
deriving DecidableEq, Repr

/-- The constant stored in `w[1]` by `ladderJoye` (`x1 = S`). -/
def joyeS : Elt :=
  [0xFE, 0xFF, 0xFF, 0xFF, 0xFF, 0xFF, 0xFF, 0xFF,
   0xFF, 0xFF, 0xFF, 0xFF, 0xFF, 0xFF, 0xFF, 0xFF,
   0xFF, 0xFF, 0xFF, 0xFF, 0xFF, 0xFF, 0xFF, 0xFF,
   0xFF, 0xFF, 0xFF, 0xFF, 0xFE, 0xFF, 0xFF, 0xFF,
   0xFF, 0xFF, 0xFF, 0xFF, 0xFF, 0xFF, 0xFF, 0xFF,
   0xFF, 0xFF, 0xFF, 0xFF, 0xFF, 0xFF, 0xFF, 0xFF,
   0xFF, 0xFF, 0xFF, 0xFF, 0xFF, 0xFF, 0xFF, 0xFF]

/-- The constant stored in `w[3]` by `ladderJoye` (`x2 = G-S`). -/
def joyeGS : Elt :=
  [0x20, 0x27, 0x9d, 0xc9, 0x7d, 0x19, 0xb1, 0xac,
   0xf8, 0xba, 0x69, 0x1c, 0xff, 0x33, 0xac, 0x23,
   0x51, 0x1b, 0xce, 0x3a, 0x64, 0x65, 0xbd, 0xf1,
   0x23, 0xf8, 0xc1, 0x84, 0x9d, 0x45, 0x54, 0x29,
   0x67, 0xb9, 0x81, 0x1c, 0x03, 0xd1, 0xcd, 0xda,
   0x7b, 0xeb, 0xff, 0x1a, 0x88, 0x03, 0xcf, 0x3a,
   0x42, 0x44, 0x32, 0x01, 0x25, 0xb7, 0xfa, 0xf0]

/-- The table `lowOrderPoints`. -/
def lowOrderPoints : List Elt :=
  [ [0x00, 0x00, 0x00, 0x00, 0x00, 0x00, 0x00, 0x00,
     0x00, 0x00, 0x00, 0x00, 0x00, 0x00, 0x00, 0x00,
     0x00, 0x00, 0x00, 0x00, 0x00, 0x00, 0x00, 0x00,
     0x00, 0x00, 0x00, 0x00, 0x00, 0x00, 0x00, 0x00,
     0x00, 0x00, 0x00, 0x00, 0x00, 0x00, 0x00, 0x00,
     0x00, 0x00, 0x00, 0x00, 0x00, 0x00, 0x00, 0x00,
     0x00, 0x00, 0x00, 0x00, 0x00, 0x00, 0x00, 0x00],
    [0x01, 0x00, 0x00, 0x00, 0x00, 0x00, 0x00, 0x00,
     0x00, 0x00, 0x00, 0x00, 0x00, 0x00, 0x00, 0x00,
     0x00, 0x00, 0x00, 0x00, 0x00, 0x00, 0x00, 0x00,
     0x00, 0x00, 0x00, 0x00, 0x00, 0x00, 0x00, 0x00,
     0x00, 0x00, 0x00, 0x00, 0x00, 0x00, 0x00, 0x00,
     0x00, 0x00, 0x00, 0x00, 0x00, 0x00, 0x00, 0x00,
     0x00, 0x00, 0x00, 0x00, 0x00, 0x00, 0x00, 0x00],
    [0xFE, 0xFF, 0xFF, 0xFF, 0xFF, 0xFF, 0xFF, 0xFF,
     0xFF, 0xFF, 0xFF, 0xFF, 0xFF, 0xFF, 0xFF, 0xFF,
     0xFF, 0xFF, 0xFF, 0xFF, 0xFF, 0xFF, 0xFF, 0xFF,
     0xFF, 0xFF, 0xFF, 0xFF, 0xFE, 0xFF, 0xFF, 0xFF,
     0xFF, 0xFF, 0xFF, 0xFF, 0xFF, 0xFF, 0xFF, 0xFF,
     0xFF, 0xFF, 0xFF, 0xFF, 0xFF, 0xFF, 0xFF, 0xFF,
     0xFF, 0xFF, 0xFF, 0xFF, 0xFF, 0xFF, 0xFF, 0xFF] ]

/-- The expression `uint((k[i] >> uint(j)) & 1)` of both ladders. -/
def readBit (k : Key) (i j : Nat) : Nat := (k.getD i 0 >>> j) &&& 1

/-- The byte index `i := (s + h) / 8` of `ladderJoye`, with `h = 2`. -/
def joyeByteIndex (s : Nat) : Nat := (s + 2) / 8

/-- The bit index `j := (s + h) % 8` of `ladderJoye`, with `h = 2`. -/
def joyeBitIndex (s : Nat) : Nat := (s + 2) % 8

/-- The bit `ladderJoye` reads at step `s`. -/
def joyeBit (k : Key) (s : Nat) : Nat := readBit k (joyeByteIndex s) (joyeBitIndex s)

/-- The byte index `i := s / 8` of `ladderMontgomery`. -/
def montByteIndex (s : Nat) : Nat := s / 8

/-- The bit index `j := s % 8` of `ladderMontgomery`. -/
def montBitIndex (s : Nat) : Nat := s % 8

/-- The bit `ladderMontgomery` reads at step `s`. -/
def montBit (k : Key) (s : Nat) : Nat := readBit k (montByteIndex s) (montBitIndex s)

/-- The function `toAffine(k, x, z)`: `fp.Inv(z, z)`, `fp.Mul(x, x, z)`, then
`fp.ToBytes(k[:], x)`; the result is the new content of `k`. -/
def toAffine (F : Fp) (x z : Elt) : Key :=
  let z1 := F.Inv z
  let x1 := F.Mul x z1
  F.ToBytes x1

/-- The loop state of a ladder: the array `w`, the flag (`swap` or `move`)
and the ghost record of calls. -/
structure LoopState where
  w : W
  flag : Nat
  trace : List Event
deriving DecidableEq, Repr

/-- One iteration of the first loop of `ladderJoye`, at step `s`. -/
def joyeBody (H : Helpers) (k : Key) (st : LoopState) (s : Nat) : LoopState :=
  let bit := joyeBit k s
  let w := { st.w with w0 := copy st.w.w0 (slice H.tableGenerator (s * Size) ((s + 1) * Size)) }
  { w := H.diffAdd w (st.flag ^^^ bit)
    flag := bit
    trace := st.trace ++ [Event.diffAdd (st.flag ^^^ bit)] }

/-- One iteration of the second loop of `ladderJoye`: `double(&w[1], &w[2])`. -/
def joyeDouble (H : Helpers) (st : LoopState) (_s : Nat) : LoopState :=
  let r := H.double st.w.w1 st.w.w2
  { st with w := { st.w with w1 := r.1, w2 := r.2 }, trace := st.trace ++ [Event.double] }

/-- The state of `ladderJoye` before its first loop. -/
def joyeInit (H : Helpers) : LoopState :=
  { w := { zeroW with w1 := joyeS, w2 := H.one, w3 := joyeGS, w4 := H.one }
    flag := 1
    trace := [] }

/-- The state of `ladderJoye` after `for s := 0; s < n-h; s++` with `n = 448`, `h = 2`. -/
def joyeLoop (H : Helpers) (k : Key) : LoopState :=
  (List.range (448 - 2)).foldl (joyeBody H k) (joyeInit H)

/-- The function `ladderJoye(k)`, with the record of its calls: the new content of `k`
and the calls made. -/
def ladderJoyeRun (H : Helpers) (k : Key) : Key × List Event :=
  let st := (List.range 2).foldl (joyeDouble H) (joyeLoop H k)
  (toAffine H.toFp st.w.w1 st.w.w2, st.trace ++ [Event.toAffine])

/-- The function `ladderJoye(k)`: the new content of `k`. -/
def ladderJoye (H : Helpers) (k : Key) : Key := (ladderJoyeRun H k).1

/-- One iteration of the loop of `ladderMontgomery`, at step `s`. -/
def montBody (H : Helpers) (k : Key) (st : LoopState) (s : Nat) : LoopState :=
  let bit := montBit k s
  { w := H.ladderStep st.w (st.flag ^^^ bit)
    flag := bit
    trace := st.trace ++ [Event.ladderStep (st.flag ^^^ bit)] }

/-- The state of `ladderMontgomery` before its loop. -/
def montInit (H : Helpers) (xP : Key) : LoopState :=
  { w := { zeroW with w0 := xP, w1 := H.one, w3 := xP, w4 := H.one }
    flag := 0
    trace := [] }

/-- The state of `ladderMontgomery` after `for s := 448 - 1; s >= 0; s--`. -/
def montLoop (H : Helpers) (k xP : Key) : LoopState :=
  (List.range 448).reverse.foldl (montBody H k) (montInit H xP)

/-- The function `ladderMontgomery(k, xP)`, with the record of its calls. -/
def ladderMontgomeryRun (H : Helpers) (k xP : Key) : Key × List Event :=
  let st := montLoop H k xP
  (toAffine H.toFp st.w.w1 st.w.w2, st.trace ++ [Event.toAffine])

/-- The function `ladderMontgomery(k, xP)`: the new content of `k`. -/
def ladderMontgomery (H : Helpers) (k xP : Key) : Key := (ladderMontgomeryRun H k xP).1

/-- The arguments of the `diffAdd` and `ladderStep` calls of a record, in order. -/
def swapArgs : List Event → List Nat
  | [] => []
  | Event.diffAdd b :: es => b :: swapArgs es
  | Event.ladderStep b :: es => b :: swapArgs es
  | _ :: es => swapArgs es

/-- The XOR of a list of flags. -/
def xorAll (bs : List Nat) : Nat := bs.foldl (· ^^^ ·) 0

/-- The flags a ladder passes to its step over the steps `l`, from the flag `f`. -/
def flagsFrom (bit : Nat → Nat) : Nat → List Nat → List Nat
  | _, [] => []
  | f, s :: l => (f ^^^ bit s) :: flagsFrom bit (bit s) l

/-- The flag a ladder holds after the steps `l`, from the flag `f`. -/
def lastFlag (bit : Nat → Nat) : Nat → List Nat → Nat
  | f, [] => f
  | _, s :: l => lastFlag bit (bit s) l

/-- A clamped scalar used in the examples: bytes `0xfc, 0, ..., 0, 0x80`. -/
def exampleScalar : Key := 0xfc :: (List.replicate 54 0 ++ [0x80])

/-- Helpers that leave their arguments unchanged, used in the examples. -/
def exampleHelpers : Helpers :=
  { tableGenerator := List.replicate (448 * Size) 0
    diffAdd := fun w _ => w
    double := fun x z => (x, z)
    ladderStep := fun w _ => w
    one := 1 :: List.replicate 55 0
    Inv := fun z => z
    Mul := fun x _ => x
    ToBytes := fun x => x }

/-- The prime of the field of Curve448. -/
def p : Nat := 2 ^ 448 - 2 ^ 224 - 1

open WeierstrassCurve

/-- Square-and-multiply loop of modular exponentiation: `acc * b ^ e mod m`, with `fuel`
bounding the number of bits of `e`. -/
def powModAux : Nat → Nat → Nat → Nat → Nat → Nat
  | 0, acc, _, _, _ => acc
  | fuel + 1, acc, b, e, m =>
    if e = 0 then acc
    else powModAux fuel (if e % 2 = 1 then acc * b % m else acc) (b * b % m) (e / 2) m

/-- Modular exponentiation `a ^ e mod m` by square-and-multiply. -/
def powMod (a e m : Nat) : Nat := powModAux (e + 1) (1 % m) (a % m) e m

/-- Modelled from the spec: the 56-byte little-endian encoding that `fp.ToBytes` writes
("the 56-byte canonical encoding", "56-byte little-endian buffer"); the package `fp` is
missing from the sources. -/
def toLE (n : Nat) : List Nat := (List.range Size).map fun i => n / 256 ^ i % 256

/-- Modelled from the spec: `fp.SetOne`, the field element one; the package `fp` is
missing from the sources. -/
def fpOne : Elt := toLE 1

/-- Modelled from the spec: `fp.Add`, addition modulo the prime `2^448 - 2^224 - 1`; the
package `fp` is missing from the sources. -/
def fpAdd (x y : Elt) : Elt := toLE ((leValue x + leValue y) % p)

/-- Modelled from the spec: `fp.Sub`, subtraction modulo the prime; the package `fp` is
missing from the sources. -/
def fpSub (x y : Elt) : Elt := toLE ((leValue x + (p - leValue y % p)) % p)

/-- Modelled from the spec: `fp.Mul`, multiplication modulo the prime; the package `fp` is
missing from the sources. -/
def fpMul (x y : Elt) : Elt := toLE (leValue x * leValue y % p)

/-- Modelled from the spec: `fp.Inv`, "modular inverse via exponentiation", that is the
power `p - 2`, which sends zero to zero; the package `fp` is missing from the sources. -/
def fpInv (x : Elt) : Elt := toLE (powMod (leValue x) (p - 2) p % p)

/-- Modelled from the spec: `fp.ToBytes`, the canonical (fully reduced) encoding; the
package `fp` is missing from the sources. -/
def fpToBytes (x : Elt) : List Nat := toLE (leValue x % p)

/-- Modelled from the spec: the package `fp` as `curve.go` uses it; the package is
missing from the sources. -/
def fpSpec : Fp := { one := fpOne, Inv := fpInv, Mul := fpMul, ToBytes := fpToBytes }

/-- Modelled from the spec: the conditional swap `fp.Cswap(x, y, b)` ("constant-time
conditional swap"), with the two values exchanged when the flag `b` is non-zero; the
package `fp` is missing from the sources. -/
def cswap (b : Nat) (x y : Elt) : Elt × Elt := if b = 0 then (x, y) else (y, x)

/-- Modelled from the spec: the constant `(A - 2) / 4 = 39081` of the doubling formula on
Curve448, `A = 156326`, as a field element; it belongs to `ladderStep`, whose definition is
missing from the sources. -/
def a24 : Elt := toLE 39081

/-- Modelled from the spec: `ladderStep(&w, b)`, whose definition is missing from the
sources: "a constant-time conditional swap" of `(x2, z2)` and `(x3, z3)` by the flag, then
"one ladder step (combined add+double)" on `v^2 = u^3 + 156326*u^2 + u`: `(x3, z3)` becomes
the differential sum of the two points with difference `x1`, `(x2, z2)` the double of the
first, by the x-only formulas of the X448 function. -/
def ladderStepSpec (w : W) (b : Nat) : W :=
  let x1 := w.w0
  let sx := cswap b w.w1 w.w3
  let sz := cswap b w.w2 w.w4
  let x2 := sx.1
  let x3 := sx.2
  let z2 := sz.1
  let z3 := sz.2
  let tA := fpAdd x2 z2
  let tB := fpSub x2 z2
  let tC := fpAdd x3 z3
  let tD := fpSub x3 z3
  let tDA := fpMul tD tA
  let tCB := fpMul tC tB
  let tAA := fpMul tA tA
  let tBB := fpMul tB tB
  let tE := fpSub tAA tBB
  { w0 := x1
    w1 := fpMul tAA tBB
    w2 := fpMul tE (fpAdd tAA (fpMul a24 tE))
    w3 := fpMul (fpAdd tDA tCB) (fpAdd tDA tCB)
    w4 := fpMul x1 (fpMul (fpSub tDA tCB) (fpSub tDA tCB)) }

/-- The field element a byte buffer stands for: its little-endian value modulo `p`. -/
def fe (x : Elt) : ZMod p := (leValue x : ZMod p)

/-- The x-coordinate of the double of `(X : Z)`. -/
def dblX (X Z : ZMod p) : ZMod p := (X + Z) ^ 2 * (X - Z) ^ 2

/-- The z-coordinate of the double of `(X : Z)`. -/
def dblZ (X Z : ZMod p) : ZMod p :=
  ((X + Z) ^ 2 - (X - Z) ^ 2) * ((X + Z) ^ 2 + 39081 * ((X + Z) ^ 2 - (X - Z) ^ 2))

/-- The x-coordinate of the differential sum of `(X2 : Z2)` and `(X3 : Z3)`. -/
def dadX (X2 Z2 X3 Z3 : ZMod p) : ZMod p :=
  ((X3 - Z3) * (X2 + Z2) + (X3 + Z3) * (X2 - Z2)) ^ 2

/-- The z-coordinate of the differential sum of `(X2 : Z2)` and `(X3 : Z3)` with
difference `x1`. -/
def dadZ (x1 X2 Z2 X3 Z3 : ZMod p) : ZMod p :=
  x1 * ((X3 - Z3) * (X2 + Z2) - (X3 + Z3) * (X2 - Z2)) ^ 2

/-- The Montgomery curve `v^2 = u^3 + A*u^2 + u` as a Weierstrass curve. -/
def montCurve {R : Type} [CommRing R] (A : R) : WeierstrassCurve.Affine R := ⟨0, A, 0, 1, 0⟩

/-- The pair `(X, Z)` is a projective x-coordinate of the point `R`: `Z = 0` and `X ≠ 0` for
the point at infinity, `X / Z = x` for an affine point `(x, y)`. -/
def Rep {R : Type} [CommRing R] {A : R} (X Z : R) : (montCurve A).Point → Prop
  | .zero => Z = 0 ∧ X ≠ 0
  | @Affine.Point.some _ _ _ x _ _ => Z ≠ 0 ∧ X = x * Z

/-- Curve448, `v^2 = u^3 + 156326*u^2 + u`, over the field of integers modulo `p`. -/
def curve448 : WeierstrassCurve.Affine (ZMod p) := montCurve (156326 : ZMod p)

/-- The x-coordinate a point is encoded by: zero for the point at infinity. -/
def xOut : curve448.Point → ZMod p
  | .zero => 0
  | @Affine.Point.some _ _ _ x _ _ => x

/-- The ladder invariant: `w[0]` holds `x1`, and `(w[1] : w[2])`, `(w[3] : w[4])` are
projective x-coordinates of `n • P` and `(n + 1) • P`, exchanged when the flag is set. -/
def LadderInv {F : Type} [Field F] {A : F} (f : Elt → F) (P : (montCurve A).Point) (x1 : F)
    (n flag : Nat) (w : W) : Prop :=
  f w.w0 = x1 ∧
  if flag = 0 then Rep (f w.w1) (f w.w2) (n • P) ∧ Rep (f w.w3) (f w.w4) ((n + 1) • P)
  else Rep (f w.w1) (f w.w2) ((n + 1) • P) ∧ Rep (f w.w3) (f w.w4) (n • P)

/-- The ladder invariant for the input point `x1 = 0`. -/
def ZeroInv (w : W) : Prop := fe w.w0 = 0 ∧ fe w.w1 * fe w.w2 = 0 ∧ fe w.w3 * fe w.w4 = 0

/-- Kind of a projective x-coordinate: the point at infinity. -/
def KindO (X Z : ZMod p) : Prop := Z = 0 ∧ X ≠ 0

/-- Kind of a projective x-coordinate: the point of order 2, `x = 0`. -/
def KindT (X Z : ZMod p) : Prop := Z ≠ 0 ∧ X = 0

/-- Kind of a projective x-coordinate: a point with `x = e`. -/
def KindP (e X Z : ZMod p) : Prop := Z ≠ 0 ∧ X = e * Z

/-- The ladder invariant for an input point `x1 = e` with `e^2 = 1`: one of the two
running points has `x = e`, the other is the point at infinity or the point of order 2. -/
def UnitInv (e : ZMod p) (w : W) : Prop :=
  fe w.w0 = e ∧
  ((KindP e (fe w.w1) (fe w.w2) ∧ (KindO (fe w.w3) (fe w.w4) ∨ KindT (fe w.w3) (fe w.w4))) ∨
   ((KindO (fe w.w1) (fe w.w2) ∨ KindT (fe w.w1) (fe w.w2)) ∧ KindP e (fe w.w3) (fe w.w4)))

/-- The x-coordinate 5 of the generator of Curve448, as a 56-byte little-endian key. -/
def generatorG : Key := 5 :: List.replicate 55 0

/-- The y-coordinate of the generator of Curve448 (the base point of RFC 7748). -/
def generatorY : Nat :=
  355293926785568175264127502063783334808976399387714271831880898435169088786967410002932673765864550910142774147268105838985595290606362

/-- Helpers with the package `fp` and `ladderStep` modelled from the spec; the helpers only
`ladderJoye` calls (the table, `diffAdd`, `double`) leave their arguments unchanged. -/
def montgomeryHelpers : Helpers :=
  { toFp := fpSpec
    tableGenerator := []
    diffAdd := fun w _ => w
    double := fun x z => (x, z)
    ladderStep := ladderStepSpec }

/-- A second clamped scalar used in the examples: bytes `0x04, 1, 0, ..., 0, 0xC0`. -/
def exampleScalar2 : Key := 0x04 :: 1 :: (List.replicate 53 0 ++ [0xC0])

/-- The field element two, as 56 bytes. -/
def exampleTwo : Elt := 2 :: List.replicate 55 0

/-- The values of `w[1]`, `w[2]`, `w[3]`, `w[4]` of the Montgomery ladder, as integers. -/
structure NatState where
  x2 : Nat
  z2 : Nat
  x3 : Nat
  z3 : Nat
deriving DecidableEq, Repr

/-- The step `ladderStepSpec` on the integers the field elements encode. -/
def stepNat (x1 : Nat) (b : Nat) (s : NatState) : NatState :=
  let x2 := if b = 0 then s.x2 else s.x3
  let z2 := if b = 0 then s.z2 else s.z3
  let x3 := if b = 0 then s.x3 else s.x2
  let z3 := if b = 0 then s.z3 else s.z2
  let tA := (x2 + z2) % p
  let tB := (x2 + (p - z2 % p)) % p
  let tC := (x3 + z3) % p
  let tD := (x3 + (p - z3 % p)) % p
  let tDA := tD * tA % p
  let tCB := tC * tB % p
  let tAA := tA * tA % p
  let tBB := tB * tB % p
  let tE := (tAA + (p - tBB % p)) % p
  { x2 := tAA * tBB % p
    z2 := tE * ((tAA + 39081 * tE % p) % p) % p
    x3 := (tDA + tCB) % p * ((tDA + tCB) % p) % p
    z3 := x1 * (((tDA + (p - tCB % p)) % p) * ((tDA + (p - tCB % p)) % p) % p) % p }

/-- The loop of `ladderMontgomery` on integers: the `n` bits of `K` above bit `lo`, from
the highest down, starting with the flag `flag`; the result is the last flag and the state. -/
def loopNat (x1 K : Nat) : Nat → Nat → Nat → NatState → Nat × NatState
  | 0, _, flag, s => (flag, s)
  | n + 1, lo, flag, s =>
    loopNat x1 K n lo (K / 2 ^ (lo + n) % 2) (stepNat x1 (flag ^^^ (K / 2 ^ (lo + n) % 2)) s)

/-- The integers the elements `w[1..4]` encode. -/
def valW (w : W) : NatState := ⟨leValue w.w1, leValue w.w2, leValue w.w3, leValue w.w4⟩

/-- The scalar of the first X448 test vector of RFC 7748, section 5.2, clamped. -/
def rfcScalar : Key :=
  [0x3c, 0x26, 0x2f, 0xdd, 0xf9, 0xec, 0x8e, 0x88,
   0x49, 0x52, 0x66, 0xfe, 0xa1, 0x9a, 0x34, 0xd2,
   0x88, 0x82, 0xac, 0xef, 0x04, 0x51, 0x04, 0xd0,
   0xd1, 0xaa, 0xe1, 0x21, 0x70, 0x0a, 0x77, 0x9c,
   0x98, 0x4c, 0x24, 0xf8, 0xcd, 0xd7, 0x8f, 0xbf,
   0xf4, 0x49, 0x43, 0xeb, 0xa3, 0x68, 0xf5, 0x4b,
   0x29, 0x25, 0x9a, 0x4f, 0x1c, 0x60, 0x0a, 0xd3]

/-- The input u-coordinate of the first X448 test vector of RFC 7748, section 5.2. -/
def rfcPoint : Key :=
  [0x06, 0xfc, 0xe6, 0x40, 0xfa, 0x34, 0x87, 0xbf,
   0xda, 0x5f, 0x6c, 0xf2, 0xd5, 0x26, 0x3f, 0x8a,
   0xad, 0x88, 0x33, 0x4c, 0xbd, 0x07, 0x43, 0x7f,
   0x02, 0x0f, 0x08, 0xf9, 0x81, 0x4d, 0xc0, 0x31,
   0xdd, 0xbd, 0xc3, 0x8c, 0x19, 0xc6, 0xda, 0x25,
   0x83, 0xfa, 0x54, 0x29, 0xdb, 0x94, 0xad, 0xa1,
   0x8a, 0xa7, 0xa7, 0xfb, 0x4e, 0xf8, 0xa0, 0x86]

/-- The output u-coordinate of the first X448 test vector of RFC 7748, section 5.2. -/
def rfcOutput : Key :=
  [0xce, 0x3e, 0x4f, 0xf9, 0x5a, 0x60, 0xdc, 0x66,
   0x97, 0xda, 0x1d, 0xb1, 0xd8, 0x5e, 0x6a, 0xfb,
   0xdf, 0x79, 0xb5, 0x0a, 0x24, 0x12, 0xd7, 0x54,
   0x6d, 0x5f, 0x23, 0x9f, 0xe1, 0x4f, 0xba, 0xad,
   0xeb, 0x44, 0x5f, 0xc6, 0x6a, 0x01, 0xb0, 0x77,
   0x9d, 0x98, 0x22, 0x39, 0x61, 0x11, 0x1e, 0x21,
   0x76, 0x62, 0x82, 0xf7, 0x3d, 0xd9, 0x6b, 0x6f]

/-- The state of the ladder of the test vector before the loop. -/
def rfcState0 : NatState := ⟨1, 0, leValue rfcPoint, 1⟩

/-- The state of the ladder of the test vector after bit 384. -/
def rfcState1 : NatState :=
  ⟨342952211720346237316657040812541711737862087419738278475342780466018760820421073606914951695515272791446436335656088890536351527456768,
    334096198746178487605687397170793410224653971335881765474844641382408107783912631613927009847103953542088476639390502160014939333998331,
    677930797750562050973961183328573359264349650681865322883365443834800548836567147334391586334621238117003613805401038953338150108041497,
    104875147145776074859260811223235485735583624496297712609530404879567095920754486714471123112193533221964844516394481632931517703769673⟩

/-- The state of the ladder of the test vector after bit 320. -/
def rfcState2 : NatState :=
  ⟨522678352239600329363424712178402163006958459562342770339157598278693350585032412583740596087467655960068447097433525996697380972396643,
    661578430763573586051239520133957149349011095670359857599015255947539729025710788563550001882112806027662860024753942762609720255316715,
    483943553973536229832278597383513175597807304942774593187520882742078616176429893615734360047354149115677185512168071545815281294528429,
    120750621324950086573891301812350920687791591946052695818093214700467939634886185926223833979867672763617343602597069448095140047433097⟩

/-- The state of the ladder of the test vector after bit 256. -/
def rfcState3 : NatState :=
  ⟨675584128051822428846921258770000336730939343011391965550333905406357762571534786634060835098805118655958524356144886316609599502363560,
    12028569344771662116836826430524607418267402188300566060898310282823130590381759786595995793912234299819622992186917773088669455438730,
    170345117579907797026364635864276742428155210366782511666430425882328672713383357149353521289655175211178380713274117865829392185389085,
    585799465745254750675412368633966517719532447230244773249323573839510619988003504933480108814147323907094492019338411180310746345350694⟩

/-- The state of the ladder of the test vector after bit 192. -/
def rfcState4 : NatState :=
  ⟨478798963484377667592072969600777985681036101712024780709362983798628323874683830283467019086289280542211451583784907625987407353154408,
    15104885250756593436992523280601960921930824461673272735644967825357651789031553621904624229065231161556426060652697872968404633862471,
    57978588820719162070357979944541885914179229236945703230517745699179701775034488399924071369808168250344536830599888442484405280747701,
    625852059110927997776905756748761130927210012321202805277630952894097552699911527085167577900277173976373292469189696034844812951313618⟩

/-- The state of the ladder of the test vector after bit 128. -/
def rfcState5 : NatState :=
  ⟨293460039691690569653769329164760488462755401787480065117164304841645532802870893149813158992483595957751663550518688895646090268367278,
    450401449507221358491865747994124183419910609147218067034339678725462428681392701361560330821105778661297776510997039737105274685222547,
    207535116456303886761310745158138422730367251038293577641074183444199033138338656844507238474108170965287710706459775112011876257612831,
    457067293188156129140680453467031550918749502600624464138853716291150587149429331774423932741958787869313667657956377328249841795062617⟩

/-- The state of the ladder of the test vector after bit 64. -/
def rfcState6 : NatState :=
  ⟨624760672555521937794023245120368459120193746985383142889991146490437459792757845051720719233085215341823237631035744546789302659868216,
    314059702303102957726494676907046584814602872441930716091680363935870224273126796258776817719801841984971023642097008140692529698582785,
    401089853569391139595061399869466424743709466239840680738347471231411474307928726761496575947222248291071719354111558270080356300336273,
    152369539821320211090741672108399932618935986764340066791685028719756786135118346050976069068111420520586237626018867065897284609462303⟩

/-- The state of the ladder of the test vector after bit 0. -/
def rfcState7 : NatState :=
  ⟨402095199679840594149288973831822184308204364421507010297674630743188842266581447119822694882175932140166250522224938401876784789737852,
    468532866125835570991420109401717670032181986382732862848515784150382552766961223810870088558029829705199695415186607927573780769697491,
    641288256829200737734912058936102254785070597902094691750996306374155414663439188348328049453010858017148405653067655548153383506906227,
    374225930029181121899845918221178997833994753419047973183160266116462287405762282261074580020978127170281138871919663921812579591983964⟩

/-- The y-coordinate of the point `S` at `u = -1` of Curve448 for which `G - S` has the
x-coordinate loaded by `ladderJoye`, `G` being the generator. -/
def pointSY : Nat :=
  197888467295464439538354009753858038256835152591059802148199779196087404232002515713604263127793030747855424464185691766453844835192428

end X448

namespace ConditionalAccess

/-- The constant `http.StatusNotFound`. -/
def StatusNotFound : Nat := 404

/-- The fields of `msgraph.IPNamedLocation` the delete function reads or writes:
the `ID` of its `BaseNamedLocation` and `IsTrusted`, both pointers. -/
structure IPNamedLocation where
  ID : Option String
  IsTrusted : Option Bool
deriving DecidableEq, Repr

/-- The part of `pluginsdk.ResourceData` the delete function reads: `d.Id()` and whether
`d.GetOk("ip")` and `d.GetOk("country")` report the attribute as set. -/
structure ResourceData where
  Id : String
  ip : Bool
  country : Bool
deriving DecidableEq, Repr

/-- The answers of the named-locations client and of `helpers.WaitForDeletion`; an error
is `some msg`, a nil error is `none`. -/
structure Client where
  /-- The call `client.GetIP(ctx, id, odata.Query{})`: response, status, error. -/
  GetIP : String → Option IPNamedLocation × Nat × Option String
  /-- The call `client.UpdateIP(ctx, properties)`: status, error. -/
  UpdateIP : IPNamedLocation → Nat × Option String
  /-- The call `client.GetCountry(ctx, id, odata.Query{})`: status, error. -/
  GetCountry : String → Nat × Option String
  /-- The call `client.Delete(ctx, id)`: status, error. -/
  Delete : String → Nat × Option String
  /-- The call `helpers.WaitForDeletion(ctx, ...)` polling `client.Get` for the ID: error. -/
  WaitForDeletion : String → Option String

/-- The calls the delete function makes on its collaborators. -/
inductive Call where
  | GetIP (id : String)
  | UpdateIP (properties : IPNamedLocation)
  | GetCountry (id : String)
  | Delete (id : String)
  | WaitForDeletion (id : String)
deriving DecidableEq, Repr

/-- The returned `pluginsdk.Diagnostics`: `none` is `nil`, `some msg` an error diagnostic. -/
abbrev Diagnostics := Option String

/-- The part of `namedLocationResourceDelete` from `client.Delete` on; `tr` is the record of
the calls made so far. -/
def deleteAndWait (c : Client) (namedLocationId : String) (tr : List Call) :
    Diagnostics × List Call :=
  let tr := tr ++ [Call.Delete namedLocationId]
  match c.Delete namedLocationId with
  | (_, some _) => (some "Deleting named location", tr)
  | (_, none) =>
    let tr := tr ++ [Call.WaitForDeletion namedLocationId]
    match c.WaitForDeletion namedLocationId with
    | some _ => (some "waiting for deletion of named location", tr)
    | none => (none, tr)

/-- The part of `namedLocationResourceDelete` from `d.GetOk("country")` on. -/
def countryThenDelete (c : Client) (d : ResourceData) (namedLocationId : String)
    (tr : List Call) : Diagnostics × List Call :=
  if d.country then
    let tr := tr ++ [Call.GetCountry namedLocationId]
    match c.GetCountry namedLocationId with
    | (status, some _) =>
      if status = StatusNotFound then (none, tr)
      else (some "Retrieving named location", tr)
    | (_, none) => deleteAndWait c namedLocationId tr
  else deleteAndWait c namedLocationId tr

/-- The function `namedLocationResourceDelete`: its diagnostics and the record of the
calls it made, in order. -/
def namedLocationResourceDelete (c : Client) (d : ResourceData) : Diagnostics × List Call :=
  let namedLocationId := d.Id
  if d.ip then
    let tr := [Call.GetIP namedLocationId]
    match c.GetIP namedLocationId with
    | (_, status, some _) =>
      if status = StatusNotFound then (none, tr)
      else (some "Retrieving named location", tr)
    | (resp, _, none) =>
      if resp ≠ none ∧ (resp.bind (·.IsTrusted)) = some true then
        let properties : IPNamedLocation := { ID := some namedLocationId, IsTrusted := some false }
        let tr := tr ++ [Call.UpdateIP properties]
        match c.UpdateIP properties with
        | (_, some _) => (some "Updating named location", tr)
        | (_, none) => countryThenDelete c d namedLocationId tr
      else countryThenDelete c d namedLocationId tr
  else countryThenDelete c d namedLocationId []

/-- The properties `namedLocationResourceDelete` sends to `client.UpdateIP`. -/
def untrustProperties (d : ResourceData) : IPNamedLocation :=
  { ID := some d.Id, IsTrusted := some false }

/-- A client whose every call succeeds and whose IP named location is trusted. -/
def exampleClient : Client :=
  { GetIP := fun id => (some { ID := some id, IsTrusted := some true }, 200, none)
    UpdateIP := fun _ => (200, none)
    GetCountry := fun _ => (200, none)
    Delete := fun _ => (204, none)
    WaitForDeletion := fun _ => none }

end ConditionalAccess

namespace X448

theorem readBit_eq (k : List Nat) (hk : ∀ b ∈ k, b < 256) (i j : Nat) (hi : i < k.length)
    (hj : j < 8) : readBit k i j = leValue k / 2 ^ (8 * i + j) % 2 := by
  unfold readBit
  rw [Nat.and_one_is_mod, Nat.shiftRight_eq_div_pow]
  induction k generalizing i with
  | nil => simp at hi
  | cons b bs ih =>
    have hb : b < 256 := hk b (by simp)
    cases i with
    | zero =>
      simp only [List.getD_cons_zero, leValue, Nat.mul_zero, Nat.zero_add]
      have h256 : (256 : Nat) = 2 ^ j * 2 ^ (8 - j) := by
        rw [← pow_add, show j + (8 - j) = 8 by omega]; norm_num
      have : (b + 256 * leValue bs) / 2 ^ j = b / 2 ^ j + 2 ^ (8 - j) * leValue bs := by
        rw [h256, mul_assoc, Nat.add_mul_div_left _ _ (by positivity)]
      rw [this]
      have h2 : 2 ^ (8 - j) = 2 * 2 ^ (7 - j) := by
        rw [← pow_succ', show 7 - j + 1 = 8 - j by omega]
      rw [h2, mul_assoc, Nat.add_mul_mod_self_left]
    | succ i =>
      simp only [List.getD_cons_succ, leValue]
      have hi2 : i < bs.length := by simpa using hi
      rw [ih (fun b hb => hk b (by simp [hb])) i hi2]
      have : 2 ^ (8 * (i + 1) + j) = 256 * 2 ^ (8 * i + j) := by
        rw [show 8 * (i + 1) + j = 8 + (8 * i + j) by ring, pow_add]; norm_num
      rw [this, ← Nat.div_div_eq_div_mul]
      congr 2
      rw [Nat.add_mul_div_left _ _ (by norm_num), Nat.div_eq_of_lt hb, Nat.zero_add]

theorem flagsFrom_length (bit : Nat → Nat) (f : Nat) (l : List Nat) :
    (flagsFrom bit f l).length = l.length := by
  induction l generalizing f with
  | nil => rfl
  | cons s l ih => simp [flagsFrom, ih]

theorem foldl_xor_start (a : Nat) (l : List Nat) :
    l.foldl (· ^^^ ·) a = a ^^^ l.foldl (· ^^^ ·) 0 := by
  induction l generalizing a with
  | nil => simp
  | cons b l ih =>
    simp only [List.foldl_cons, Nat.zero_xor]
    rw [ih (a ^^^ b), ih b, Nat.xor_assoc]

theorem xorAll_cons (b : Nat) (l : List Nat) : xorAll (b :: l) = b ^^^ xorAll l := by
  unfold xorAll
  simp only [List.foldl_cons, Nat.zero_xor]
  exact foldl_xor_start b l

theorem xorAll_flagsFrom (bit : Nat → Nat) (f : Nat) (l : List Nat) :
    xorAll (flagsFrom bit f l) = f ^^^ lastFlag bit f l := by
  induction l generalizing f with
  | nil => simp [flagsFrom, lastFlag, xorAll]
  | cons s l ih =>
    simp only [flagsFrom, lastFlag, xorAll_cons, ih]
    rw [← Nat.xor_assoc, Nat.xor_assoc f, Nat.xor_self, Nat.xor_zero]

theorem lastFlag_concat (bit : Nat → Nat) (f : Nat) (l : List Nat) (s : Nat) :
    lastFlag bit f (l ++ [s]) = bit s := by
  induction l generalizing f with
  | nil => rfl
  | cons t l ih => simpa [lastFlag] using ih (bit t)

theorem swapArgs_append (a b : List Event) : swapArgs (a ++ b) = swapArgs a ++ swapArgs b := by
  induction a with
  | nil => rfl
  | cons e a ih => cases e <;> simp [swapArgs, ih]

theorem swapArgs_map_diffAdd (l : List Nat) : swapArgs (l.map Event.diffAdd) = l := by
  induction l with
  | nil => rfl
  | cons b l ih => simp [swapArgs, ih]

theorem swapArgs_map_ladderStep (l : List Nat) : swapArgs (l.map Event.ladderStep) = l := by
  induction l with
  | nil => rfl
  | cons b l ih => simp [swapArgs, ih]

theorem joye_foldl_trace (H : Helpers) (k : Key) (l : List Nat) (st : LoopState) :
    (l.foldl (joyeBody H k) st).trace
        = st.trace ++ (flagsFrom (joyeBit k) st.flag l).map Event.diffAdd
      ∧ (l.foldl (joyeBody H k) st).flag = lastFlag (joyeBit k) st.flag l := by
  induction l generalizing st with
  | nil => simp [flagsFrom, lastFlag]
  | cons s l ih =>
    obtain ⟨h1, h2⟩ := ih (joyeBody H k st s)
    simp only [List.foldl_cons, h1, h2]
    simp [joyeBody, flagsFrom, lastFlag]

theorem mont_foldl_trace (H : Helpers) (k : Key) (l : List Nat) (st : LoopState) :
    (l.foldl (montBody H k) st).trace
        = st.trace ++ (flagsFrom (montBit k) st.flag l).map Event.ladderStep
      ∧ (l.foldl (montBody H k) st).flag = lastFlag (montBit k) st.flag l := by
  induction l generalizing st with
  | nil => simp [flagsFrom, lastFlag]
  | cons s l ih =>
    obtain ⟨h1, h2⟩ := ih (montBody H k st s)
    simp only [List.foldl_cons, h1, h2]
    simp [montBody, flagsFrom, lastFlag]

theorem double_foldl_trace (H : Helpers) (l : List Nat) (st : LoopState) :
    (l.foldl (joyeDouble H) st).trace = st.trace ++ List.replicate l.length Event.double := by
  induction l generalizing st with
  | nil => simp
  | cons s l ih =>
    simp only [List.foldl_cons, ih, List.length_cons, List.replicate_succ]
    simp [joyeDouble]

theorem ladderJoyeRun_trace (H : Helpers) (k : Key) :
    (ladderJoyeRun H k).2
      = (flagsFrom (joyeBit k) 1 (List.range 446)).map Event.diffAdd
          ++ [Event.double, Event.double, Event.toAffine] := by
  simp only [ladderJoyeRun, double_foldl_trace, joyeLoop, (joye_foldl_trace H k _ _).1]
  simp [joyeInit, List.replicate]

theorem ladderMontgomeryRun_trace (H : Helpers) (k xP : Key) :
    (ladderMontgomeryRun H k xP).2
      = (flagsFrom (montBit k) 0 (List.range 448).reverse).map Event.ladderStep
          ++ [Event.toAffine] := by
  simp only [ladderMontgomeryRun, montLoop, (mont_foldl_trace H k _ _).1]
  simp [montInit]

/-- Claim C5: `ladderJoye` makes exactly 446 `diffAdd` calls, then exactly 2 `double`
calls, then one `toAffine` call, and `ladderMontgomery` makes exactly 448 `ladderStep`
calls, then one `toAffine` call, for every key, every point and every behaviour of the
helpers. -/
theorem C5_fixed_iteration_counts (H : Helpers) (k xP : Key) :
    (∃ bs : List Nat, bs.length = 446 ∧
      (ladderJoyeRun H k).2
        = bs.map Event.diffAdd ++ [Event.double, Event.double, Event.toAffine]) ∧
    (∃ bs : List Nat, bs.length = 448 ∧
      (ladderMontgomeryRun H k xP).2 = bs.map Event.ladderStep ++ [Event.toAffine]) := by
  refine ⟨⟨_, ?_, ladderJoyeRun_trace H k⟩, ⟨_, ?_, ladderMontgomeryRun_trace H k xP⟩⟩
  · simp [flagsFrom_length]
  · simp [flagsFrom_length]

theorem readBit_le_one (k : Key) (i j : Nat) : readBit k i j ≤ 1 := by
  unfold readBit
  rw [Nat.and_one_is_mod]
  omega

theorem xor_le_one {a b : Nat} (ha : a ≤ 1) (hb : b ≤ 1) : a ^^^ b ≤ 1 := by
  interval_cases a <;> interval_cases b <;> decide

theorem flagsFrom_le_one (bit : Nat → Nat) (hbit : ∀ s, bit s ≤ 1) (f : Nat) (hf : f ≤ 1)
    (l : List Nat) : ∀ b ∈ flagsFrom bit f l, b ≤ 1 := by
  induction l generalizing f with
  | nil => simp [flagsFrom]
  | cons s l ih =>
    intro b hb
    simp only [flagsFrom, List.mem_cons] at hb
    rcases hb with rfl | hb
    · exact xor_le_one hf (hbit s)
    · exact ih (bit s) (hbit s) b hb

theorem xorAll_eq_count (l : List Nat) (hl : ∀ b ∈ l, b ≤ 1) :
    xorAll l = l.count 1 % 2 := by
  induction l with
  | nil => rfl
  | cons b l ih =>
    have hb : b ≤ 1 := hl b (by simp)
    have ih2 := ih (fun c hc => hl c (by simp [hc]))
    rw [xorAll_cons, ih2]
    interval_cases b
    · simp
    · simp only [List.count_cons_self]
      rcases Nat.mod_two_eq_zero_or_one (List.count 1 l) with h | h
      · rw [h]; have h1 : (List.count 1 l + 1) % 2 = 1 := by omega
        rw [h1]; decide
      · rw [h]; have : (List.count 1 l + 1) % 2 = 0 := by omega
        rw [this]; decide

theorem joye_swapArgs (H : Helpers) (k : Key) :
    swapArgs (ladderJoyeRun H k).2 = flagsFrom (joyeBit k) 1 (List.range 446) := by
  rw [ladderJoyeRun_trace, swapArgs_append, swapArgs_map_diffAdd]
  simp [swapArgs]

theorem mont_swapArgs (H : Helpers) (k xP : Key) :
    swapArgs (ladderMontgomeryRun H k xP).2
      = flagsFrom (montBit k) 0 (List.range 448).reverse := by
  rw [ladderMontgomeryRun_trace, swapArgs_append, swapArgs_map_ladderStep]
  simp [swapArgs]

theorem joye_xor (H : Helpers) (k : Key) :
    xorAll (swapArgs (ladderJoyeRun H k).2) = 1 ^^^ readBit k 55 7 := by
  rw [joye_swapArgs, xorAll_flagsFrom, show (446 : Nat) = 445 + 1 from rfl, List.range_succ,
    lastFlag_concat]
  rfl

theorem mont_xor (H : Helpers) (k xP : Key) :
    xorAll (swapArgs (ladderMontgomeryRun H k xP).2) = readBit k 0 0 := by
  rw [mont_swapArgs, xorAll_flagsFrom, show (448 : Nat) = 447 + 1 from rfl,
    List.range_succ_eq_map, List.reverse_cons, lastFlag_concat, Nat.zero_xor]
  rfl

theorem clamped_top_bit (k : Key) (hk : IsClamped k) : readBit k 55 7 = 1 := by
  obtain ⟨⟨hlen, hb⟩, -, h128⟩ := hk
  have h55 : k.getD 55 0 < 256 := by
    rw [List.getD_eq_getElem _ _ (by rw [hlen]; decide)]
    exact hb _ (List.getElem_mem _)
  unfold readBit
  rw [Nat.and_one_is_mod, Nat.shiftRight_eq_div_pow]
  omega

theorem clamped_low_bit (k : Key) (hk : IsClamped k) : readBit k 0 0 = 0 := by
  obtain ⟨-, h4, -⟩ := hk
  unfold readBit
  rw [Nat.and_one_is_mod, Nat.shiftRight_eq_div_pow]
  omega

/-- Claim C8: the XOR of the 446 flags `ladderJoye` passes to `diffAdd` is
`1 XOR (bit 447 of k)`, the XOR of the 448 flags `ladderMontgomery` passes to `ladderStep`
is bit 0 of `k`, and for a clamped scalar both XORs are 0 and both ladders pass the flag 1
an even number of times. -/
theorem C8_net_swap_parity (H : Helpers) (k xP : Key) :
    ((swapArgs (ladderJoyeRun H k).2).length = 446 ∧
      xorAll (swapArgs (ladderJoyeRun H k).2) = 1 ^^^ readBit k 55 7) ∧
    ((swapArgs (ladderMontgomeryRun H k xP).2).length = 448 ∧
      xorAll (swapArgs (ladderMontgomeryRun H k xP).2) = readBit k 0 0) ∧
    (IsClamped k →
      xorAll (swapArgs (ladderJoyeRun H k).2) = 0 ∧
      xorAll (swapArgs (ladderMontgomeryRun H k xP).2) = 0 ∧
      (swapArgs (ladderJoyeRun H k).2).count 1 % 2 = 0 ∧
      (swapArgs (ladderMontgomeryRun H k xP).2).count 1 % 2 = 0) := by
  have hj := joye_xor H k
  have hm := mont_xor H k xP
  have hjc : xorAll (swapArgs (ladderJoyeRun H k).2)
      = (swapArgs (ladderJoyeRun H k).2).count 1 % 2 := by
    apply xorAll_eq_count
    rw [joye_swapArgs]
    exact flagsFrom_le_one _ (fun s => readBit_le_one k _ _) 1 le_rfl _
  have hmc : xorAll (swapArgs (ladderMontgomeryRun H k xP).2)
      = (swapArgs (ladderMontgomeryRun H k xP).2).count 1 % 2 := by
    apply xorAll_eq_count
    rw [mont_swapArgs]
    exact flagsFrom_le_one _ (fun s => readBit_le_one k _ _) 0 (by decide) _
  refine ⟨⟨?_, hj⟩, ⟨?_, hm⟩, ?_⟩
  · rw [joye_swapArgs, flagsFrom_length, List.length_range]
  · rw [mont_swapArgs, flagsFrom_length, List.length_reverse, List.length_range]
  · intro hk
    have h1 : xorAll (swapArgs (ladderJoyeRun H k).2) = 0 := by
      rw [hj, clamped_top_bit k hk]; rfl
    have h2 : xorAll (swapArgs (ladderMontgomeryRun H k xP).2) = 0 := by
      rw [hm, clamped_low_bit k hk]
    exact ⟨h1, h2, by rw [← hjc, h1], by rw [← hmc, h2]⟩

theorem joyeBit_congr (k k' : Key) (htail : k.drop 1 = k'.drop 1)
    (hhigh : k.getD 0 0 / 4 = k'.getD 0 0 / 4) (s : Nat) : joyeBit k s = joyeBit k' s := by
  unfold joyeBit readBit joyeByteIndex joyeBitIndex
  rcases Nat.lt_or_ge (s + 2) 8 with h | h
  · have hi : (s + 2) / 8 = 0 := Nat.div_eq_of_lt h
    have hj : (s + 2) % 8 = s + 2 := Nat.mod_eq_of_lt h
    rw [hi, hj, Nat.shiftRight_eq_div_pow, Nat.shiftRight_eq_div_pow, pow_add,
      mul_comm (2 ^ s), ← Nat.div_div_eq_div_mul, ← Nat.div_div_eq_div_mul]
    rw [show (2 : Nat) ^ 2 = 4 from rfl, hhigh]
  · obtain ⟨i, hi⟩ : ∃ i, (s + 2) / 8 = i + 1 :=
      ⟨(s + 2) / 8 - 1, by have := Nat.div_pos h (by decide : 0 < 8); omega⟩
    have hget : ∀ l : List Nat, l.getD (i + 1) 0 = (l.drop 1).getD i 0 := by
      intro l; cases l <;> simp
    rw [hi, hget k, hget k', htail]

/-- Claim C9: two 56-byte keys that agree on bytes 1..55 and on the six high bits of
byte 0 give the same result of `ladderJoye`, whatever the helpers compute. -/
theorem C9_ladderJoye_ignores_low_bits (H : Helpers) (k k' : Key)
    (_hk : IsKey k) (_hk' : IsKey k') (htail : k.drop 1 = k'.drop 1)
    (hhigh : k.getD 0 0 / 4 = k'.getD 0 0 / 4) :
    ladderJoye H k = ladderJoye H k' := by
  have hbody : joyeBody H k = joyeBody H k' := by
    funext st s
    simp only [joyeBody, joyeBit_congr k k' htail hhigh s]
  simp only [ladderJoye, ladderJoyeRun, joyeLoop, hbody]

theorem C9_ladderJoye_ignores_low_bits_witness :
    IsKey exampleScalar ∧ IsKey (0xFF :: (List.replicate 54 0 ++ [0x80])) ∧
    ladderJoye exampleHelpers exampleScalar
      = ladderJoye exampleHelpers (0xFF :: (List.replicate 54 0 ++ [0x80])) :=
  ⟨by decide, by decide,
    C9_ladderJoye_ignores_low_bits exampleHelpers exampleScalar (0xFF :: (List.replicate 54 0 ++ [0x80]))
      (by decide) (by decide) (by decide) (by decide)⟩

/-- Claim C6: for a 56-byte key `k` encoding the little-endian integer `K`, at every step
`s < 446` of `ladderJoye` the byte index `(s+2)/8` is inside `k` and the bit read is
`K / 2^(s+2) mod 2`, and at every step `s <= 447` of `ladderMontgomery` the byte index
`s/8` is inside `k` and the bit read is `K / 2^s mod 2`. -/
theorem C6_bit_extraction (k : Key) (hk : IsKey k) :
    (∀ s, s < 446 →
      joyeByteIndex s < 56 ∧ joyeByteIndex s < k.length ∧
      joyeBit k s = (k.getD ((s + 2) / 8) 0 >>> ((s + 2) % 8)) &&& 1 ∧
      joyeBit k s = leValue k / 2 ^ (s + 2) % 2) ∧
    (∀ s, s ≤ 447 →
      montByteIndex s < 56 ∧ montByteIndex s < k.length ∧
      montBit k s = (k.getD (s / 8) 0 >>> (s % 8)) &&& 1 ∧
      montBit k s = leValue k / 2 ^ s % 2) := by
  obtain ⟨hlen, hb⟩ := hk
  have hlen56 : k.length = 56 := hlen
  constructor
  · intro s hs
    have hi : joyeByteIndex s < 56 := by unfold joyeByteIndex; omega
    refine ⟨hi, by omega, rfl, ?_⟩
    unfold joyeBit
    rw [readBit_eq k hb _ _ (by omega) (by unfold joyeBitIndex; omega)]
    unfold joyeByteIndex joyeBitIndex
    rw [Nat.div_add_mod]
  · intro s hs
    have hi : montByteIndex s < 56 := by unfold montByteIndex; omega
    refine ⟨hi, by omega, rfl, ?_⟩
    unfold montBit
    rw [readBit_eq k hb _ _ (by omega) (by unfold montBitIndex; omega)]
    unfold montByteIndex montBitIndex
    rw [Nat.div_add_mod]

theorem C6_bit_extraction_witness :
    IsKey exampleScalar ∧ joyeBit exampleScalar 445 = leValue exampleScalar / 2 ^ (445 + 2) % 2 :=
  ⟨by decide, ((C6_bit_extraction exampleScalar (by decide)).1 445 (by decide)).2.2.2⟩

theorem C8_net_swap_parity_witness :
    IsClamped exampleScalar ∧
    xorAll (swapArgs (ladderJoyeRun exampleHelpers exampleScalar).2) = 0 :=
  ⟨by decide, ((C8_net_swap_parity exampleHelpers exampleScalar exampleScalar).2.2
    (by decide)).1⟩

open WeierstrassCurve

variable {F : Type} [Field F]

theorem powModAux_eq (fuel acc b e m : Nat) (he : e < 2 ^ fuel) :
    powModAux fuel acc b e m % m = acc * b ^ e % m := by
  induction fuel generalizing acc b e with
  | zero =>
    have : e = 0 := by simpa using he
    subst this
    simp [powModAux]
  | succ n ih =>
    unfold powModAux
    by_cases h0 : e = 0
    · subst h0; simp
    · rw [if_neg h0]
      have he2 : e / 2 < 2 ^ n := by
        rw [pow_succ] at he; omega
      rw [ih _ _ _ he2]
      have hb : (b * b % m) ^ (e / 2) % m = (b * b) ^ (e / 2) % m := by
        rw [Nat.pow_mod, Nat.mod_mod, ← Nat.pow_mod]
      by_cases h1 : e % 2 = 1
      · rw [if_pos h1, Nat.mul_mod, hb, Nat.mod_mod, ← Nat.mul_mod, mul_assoc,
          ← pow_two, ← pow_mul, ← pow_succ']
        congr 3; omega
      · rw [if_neg h1, Nat.mul_mod, hb, ← Nat.mul_mod, ← pow_two, ← pow_mul]
        congr 3; omega

theorem powMod_mod (a e m : Nat) : powMod a e m % m = a ^ e % m := by
  unfold powMod
  have he : e < 2 ^ (e + 1) :=
    lt_trans (Nat.lt_two_pow e) (Nat.pow_lt_pow_right (by decide) (Nat.lt_succ_self e))
  rw [powModAux_eq _ _ _ _ _ he, Nat.mul_mod, Nat.mod_mod,
    Nat.pow_mod, Nat.mod_mod, ← Nat.pow_mod, ← Nat.mul_mod, one_mul]

theorem prime_of_cert (q a : Nat) (fs : List Nat) (hq : 1 < q)
    (hfs : ∀ r ∈ fs, Nat.Prime r) (hprod : fs.prod = q - 1)
    (h1 : powMod a (q - 1) q % q = 1)
    (hd : ∀ r ∈ fs, powMod a ((q - 1) / r) q % q ≠ 1) : Nat.Prime q := by
  have h1q : 1 % q = 1 := Nat.mod_eq_of_lt hq
  apply lucas_primality q (a : ZMod q)
  · have h : ((a ^ (q - 1) : Nat) : ZMod q) = ((1 : Nat) : ZMod q) := by
      rw [ZMod.natCast_eq_natCast_iff', ← powMod_mod, h1, h1q]
    simpa using h
  · intro r hr hdvd h
    rw [← hprod] at hdvd
    obtain ⟨s, hs, hrs⟩ := (Prime.dvd_prod_iff hr.prime).1 hdvd
    have hrs2 : r = s := (Nat.prime_dvd_prime_iff_eq hr (hfs s hs)).1 hrs
    subst hrs2
    apply hd r hs
    have h2 : ((a ^ ((q - 1) / r) : Nat) : ZMod q) = ((1 : Nat) : ZMod q) := by
      simpa using h
    rw [ZMod.natCast_eq_natCast_iff', ← powMod_mod, h1q] at h2
    exact h2

theorem prime_1466449 : Nat.Prime 1466449 := by
  refine prime_of_cert 1466449 7 [2, 2, 2, 2, 3, 137, 223] (by decide) ?_ (by decide) (by decide) (by decide)
  intro r hr
  simp only [List.mem_cons, List.mem_singleton, List.not_mem_nil, or_false] at hr
  rcases hr with rfl | rfl | rfl | rfl | rfl | rfl | rfl
  · norm_num
  · norm_num
  · norm_num
  · norm_num
  · norm_num
  · norm_num
  · norm_num

theorem prime_2916841 : Nat.Prime 2916841 := by
  refine prime_of_cert 2916841 13 [2, 2, 2, 3, 5, 109, 223] (by decide) ?_ (by decide) (by decide) (by decide)
  intro r hr
  simp only [List.mem_cons, List.mem_singleton, List.not_mem_nil, or_false] at hr
  rcases hr with rfl | rfl | rfl | rfl | rfl | rfl | rfl
  · norm_num
  · norm_num
  · norm_num
  · norm_num
  · norm_num
  · norm_num
  · norm_num

theorem prime_6700417 : Nat.Prime 6700417 := by
  refine prime_of_cert 6700417 5 [2, 2, 2, 2, 2, 2, 2, 3, 17449] (by decide) ?_ (by decide) (by decide) (by decide)
  intro r hr
  simp only [List.mem_cons, List.mem_singleton, List.not_mem_nil, or_false] at hr
  rcases hr with rfl | rfl | rfl | rfl | rfl | rfl | rfl | rfl | rfl
  · norm_num
  · norm_num
  · norm_num
  · norm_num
  · norm_num
  · norm_num
  · norm_num
  · norm_num
  · norm_num

theorem prime_1609403 : Nat.Prime 1609403 := by
  refine prime_of_cert 1609403 2 [2, 23, 59, 593] (by decide) ?_ (by decide) (by decide) (by decide)
  intro r hr
  simp only [List.mem_cons, List.mem_singleton, List.not_mem_nil, or_false] at hr
  rcases hr with rfl | rfl | rfl | rfl
  · norm_num
  · norm_num
  · norm_num
  · norm_num

theorem prime_3402277943 : Nat.Prime 3402277943 := by
  refine prime_of_cert 3402277943 5 [2, 7, 151, 1609403] (by decide) ?_ (by decide) (by decide) (by decide)
  intro r hr
  simp only [List.mem_cons, List.mem_singleton, List.not_mem_nil, or_false] at hr
  rcases hr with rfl | rfl | rfl | rfl
  · norm_num
  · norm_num
  · norm_num
  · exact prime_1609403

theorem prime_1469495262398780123809 : Nat.Prime 1469495262398780123809 := by
  refine prime_of_cert 1469495262398780123809 17 [2, 2, 2, 2, 2, 3, 7, 7, 223, 411743, 3402277943] (by decide) ?_ (by decide) (by decide) (by decide)
  intro r hr
  simp only [List.mem_cons, List.mem_singleton, List.not_mem_nil, or_false] at hr
  rcases hr with rfl | rfl | rfl | rfl | rfl | rfl | rfl | rfl | rfl | rfl | rfl
  · norm_num
  · norm_num
  · norm_num
  · norm_num
  · norm_num
  · norm_num
  · norm_num
  · norm_num
  · norm_num
  · norm_num
  · exact prime_3402277943

theorem prime_97859369123353 : Nat.Prime 97859369123353 := by
  refine prime_of_cert 97859369123353 5 [2, 2, 2, 3, 3, 67, 197, 271, 379979] (by decide) ?_ (by decide) (by decide) (by decide)
  intro r hr
  simp only [List.mem_cons, List.mem_singleton, List.not_mem_nil, or_false] at hr
  rcases hr with rfl | rfl | rfl | rfl | rfl | rfl | rfl | rfl | rfl
  · norm_num
  · norm_num
  · norm_num
  · norm_num
  · norm_num
  · norm_num
  · norm_num
  · norm_num
  · norm_num

theorem prime_167773885276849215533569 : Nat.Prime 167773885276849215533569 := by
  refine prime_of_cert 167773885276849215533569 17 [2, 2, 2, 2, 2, 2, 2, 2, 2, 3, 3, 3, 7, 7, 2531, 97859369123353] (by decide) ?_ (by decide) (by decide) (by decide)
  intro r hr
  simp only [List.mem_cons, List.mem_singleton, List.not_mem_nil, or_false] at hr
  rcases hr with rfl | rfl | rfl | rfl | rfl | rfl | rfl | rfl | rfl | rfl | rfl | rfl | rfl | rfl | rfl | rfl
  · norm_num
  · norm_num
  · norm_num
  · norm_num
  · norm_num
  · norm_num
  · norm_num
  · norm_num
  · norm_num
  · norm_num
  · norm_num
  · norm_num
  · norm_num
  · norm_num
  · norm_num
  · exact prime_97859369123353

theorem prime_1764234391 : Nat.Prime 1764234391 := by
  refine prime_of_cert 1764234391 3 [2, 3, 5, 271, 217003] (by decide) ?_ (by decide) (by decide) (by decide)
  intro r hr
  simp only [List.mem_cons, List.mem_singleton, List.not_mem_nil, or_false] at hr
  rcases hr with rfl | rfl | rfl | rfl | rfl
  · norm_num
  · norm_num
  · norm_num
  · norm_num
  · norm_num

theorem prime_34741861125639557 : Nat.Prime 34741861125639557 := by
  refine prime_of_cert 34741861125639557 13 [2, 2, 7, 7, 7, 31, 463, 1764234391] (by decide) ?_ (by decide) (by decide) (by decide)
  intro r hr
  simp only [List.mem_cons, List.mem_singleton, List.not_mem_nil, or_false] at hr
  rcases hr with rfl | rfl | rfl | rfl | rfl | rfl | rfl | rfl
  · norm_num
  · norm_num
  · norm_num
  · norm_num
  · norm_num
  · norm_num
  · norm_num
  · exact prime_1764234391

theorem prime_36131535570665139281 : Nat.Prime 36131535570665139281 := by
  refine prime_of_cert 36131535570665139281 3 [2, 2, 2, 2, 5, 13, 34741861125639557] (by decide) ?_ (by decide) (by decide) (by decide)
  intro r hr
  simp only [List.mem_cons, List.mem_singleton, List.not_mem_nil, or_false] at hr
  rcases hr with rfl | rfl | rfl | rfl | rfl | rfl | rfl
  · norm_num
  · norm_num
  · norm_num
  · norm_num
  · norm_num
  · norm_num
  · exact prime_34741861125639557

theorem prime_596242599987116128415063 : Nat.Prime 596242599987116128415063 := by
  refine prime_of_cert 596242599987116128415063 5 [2, 37, 223, 36131535570665139281] (by decide) ?_ (by decide) (by decide) (by decide)
  intro r hr
  simp only [List.mem_cons, List.mem_singleton, List.not_mem_nil, or_false] at hr
  rcases hr with rfl | rfl | rfl | rfl
  · norm_num
  · norm_num
  · norm_num
  · exact prime_36131535570665139281

theorem prime_36753053 : Nat.Prime 36753053 := by
  refine prime_of_cert 36753053 2 [2, 2, 7, 443, 2963] (by decide) ?_ (by decide) (by decide) (by decide)
  intro r hr
  simp only [List.mem_cons, List.mem_singleton, List.not_mem_nil, or_false] at hr
  rcases hr with rfl | rfl | rfl | rfl | rfl
  · norm_num
  · norm_num
  · norm_num
  · norm_num
  · norm_num

theorem prime_1255525949 : Nat.Prime 1255525949 := by
  refine prime_of_cert 1255525949 2 [2, 2, 2683, 116989] (by decide) ?_ (by decide) (by decide) (by decide)
  intro r hr
  simp only [List.mem_cons, List.mem_singleton, List.not_mem_nil, or_false] at hr
  rcases hr with rfl | rfl | rfl | rfl
  · norm_num
  · norm_num
  · norm_num
  · norm_num

theorem prime_1335912079 : Nat.Prime 1335912079 := by
  refine prime_of_cert 1335912079 6 [2, 3, 19, 31, 61, 6197] (by decide) ?_ (by decide) (by decide) (by decide)
  intro r hr
  simp only [List.mem_cons, List.mem_singleton, List.not_mem_nil, or_false] at hr
  rcases hr with rfl | rfl | rfl | rfl | rfl | rfl
  · norm_num
  · norm_num
  · norm_num
  · norm_num
  · norm_num
  · norm_num

theorem prime_32061889897 : Nat.Prime 32061889897 := by
  refine prime_of_cert 32061889897 10 [2, 2, 2, 3, 1335912079] (by decide) ?_ (by decide) (by decide) (by decide)
  intro r hr
  simp only [List.mem_cons, List.mem_singleton, List.not_mem_nil, or_false] at hr
  rcases hr with rfl | rfl | rfl | rfl | rfl
  · norm_num
  · norm_num
  · norm_num
  · norm_num
  · exact prime_1335912079

theorem prime_25136521679249 : Nat.Prime 25136521679249 := by
  refine prime_of_cert 25136521679249 3 [2, 2, 2, 2, 7, 7, 32061889897] (by decide) ?_ (by decide) (by decide) (by decide)
  intro r hr
  simp only [List.mem_cons, List.mem_singleton, List.not_mem_nil, or_false] at hr
  rcases hr with rfl | rfl | rfl | rfl | rfl | rfl | rfl
  · norm_num
  · norm_num
  · norm_num
  · norm_num
  · norm_num
  · norm_num
  · exact prime_32061889897

theorem prime_37414057161322375957408148834323969 : Nat.Prime 37414057161322375957408148834323969 := by
  refine prime_of_cert 37414057161322375957408148834323969 23 [2, 2, 2, 2, 2, 2, 2, 2, 2, 3, 3, 7, 36753053, 1255525949, 25136521679249] (by decide) ?_ (by decide) (by decide) (by decide)
  intro r hr
  simp only [List.mem_cons, List.mem_singleton, List.not_mem_nil, or_false] at hr
  rcases hr with rfl | rfl | rfl | rfl | rfl | rfl | rfl | rfl | rfl | rfl | rfl | rfl | rfl | rfl | rfl
  · norm_num
  · norm_num
  · norm_num
  · norm_num
  · norm_num
  · norm_num
  · norm_num
  · norm_num
  · norm_num
  · norm_num
  · norm_num
  · norm_num
  · exact prime_36753053
  · exact prime_1255525949
  · exact prime_25136521679249

theorem prime_p : Nat.Prime p := by
  refine prime_of_cert p 7 [2, 641, 18287, 196687, 1466449, 2916841, 6700417, 1469495262398780123809, 167773885276849215533569, 596242599987116128415063, 37414057161322375957408148834323969] (by decide) ?_ (by decide) (by decide) (by decide)
  intro r hr
  simp only [List.mem_cons, List.mem_singleton, List.not_mem_nil, or_false] at hr
  rcases hr with rfl | rfl | rfl | rfl | rfl | rfl | rfl | rfl | rfl | rfl | rfl
  · norm_num
  · norm_num
  · norm_num
  · norm_num
  · exact prime_1466449
  · exact prime_2916841
  · exact prime_6700417
  · exact prime_1469495262398780123809
  · exact prime_167773885276849215533569
  · exact prime_596242599987116128415063
  · exact prime_37414057161322375957408148834323969

theorem p_pos : 0 < p := by decide

theorem p_lt : p < 256 ^ Size := by decide

theorem toLE_length (n : Nat) : (toLE n).length = Size := by simp [toLE]

theorem toLE_isKey (n : Nat) : IsKey (toLE n) := by
  refine ⟨toLE_length n, ?_⟩
  intro b hb
  simp only [toLE, List.mem_map] at hb
  obtain ⟨i, -, rfl⟩ := hb
  exact Nat.mod_lt _ (by decide)

theorem leValue_map_range (m n : Nat) :
    leValue ((List.range m).map fun i => n / 256 ^ i % 256) = n % 256 ^ m := by
  induction m generalizing n with
  | zero => simp [leValue, Nat.mod_one]
  | succ m ih =>
    rw [List.range_succ_eq_map, List.map_cons, List.map_map, leValue]
    have hfun : ((fun i => n / 256 ^ i % 256) ∘ Nat.succ) = fun i => n / 256 / 256 ^ i % 256 := by
      funext i
      simp only [Function.comp, Nat.succ_eq_add_one, pow_succ']
      rw [Nat.div_div_eq_div_mul]
    rw [hfun, ih, pow_succ', Nat.mod_mul]
    simp

theorem leValue_toLE (n : Nat) : leValue (toLE n) = n % 256 ^ Size := leValue_map_range _ _

theorem leValue_toLE_of_lt {n : Nat} (h : n < p) : leValue (toLE n) = n := by
  rw [leValue_toLE, Nat.mod_eq_of_lt (lt_trans h p_lt)]

theorem leValue_toLE_mod (n : Nat) : leValue (toLE (n % p)) = n % p :=
  leValue_toLE_of_lt (Nat.mod_lt _ p_pos)

instance fact_prime_p : Fact (Nat.Prime p) := ⟨prime_p⟩

theorem toAffine_fpSpec (x z : Elt) :
    toAffine fpSpec x z = toLE (leValue x * leValue z ^ (p - 2) % p) := by
  simp only [toAffine, fpSpec, fpToBytes, fpMul, fpInv]
  rw [leValue_toLE_mod, leValue_toLE_mod, Nat.mod_mod, powMod_mod, Nat.mul_mod, Nat.mod_mod,
    ← Nat.mul_mod]

theorem one_mod_p : 1 % p = 1 := by decide

theorem fermat_nat (z : Nat) (hz : z % p ≠ 0) : z ^ (p - 1) % p = 1 := by
  have hz' : (z : ZMod p) ≠ 0 := by
    rw [Ne, ZMod.natCast_zmod_eq_zero_iff_dvd, Nat.dvd_iff_mod_eq_zero]
    exact hz
  have h2 : ((z ^ (p - 1) : Nat) : ZMod p) = ((1 : Nat) : ZMod p) := by
    rw [Nat.cast_pow, ZMod.pow_card_sub_one_eq_one hz', Nat.cast_one]
  rw [ZMod.natCast_eq_natCast_iff'] at h2
  rw [h2, one_mod_p]

/-- Claim C4: with the field arithmetic modelled from the spec, `toAffine(k, x, z)` writes
the 56-byte little-endian encoding of `r = x * z^(p-2) mod p`, which is below `p`; `r * z =
x (mod p)` when `z` is non-zero modulo `p`, and `r = 0` when `z` is zero modulo `p`. -/
theorem C4_toAffine_canonical_quotient (x z : Elt) :
    toAffine fpSpec x z = toLE (leValue x * leValue z ^ (p - 2) % p) ∧
    IsKey (toAffine fpSpec x z) ∧
    leValue (toAffine fpSpec x z) = leValue x * leValue z ^ (p - 2) % p ∧
    leValue x * leValue z ^ (p - 2) % p < p ∧
    (∀ r, r < p → r % p = leValue x * leValue z ^ (p - 2) % p →
      r = leValue (toAffine fpSpec x z)) ∧
    (leValue z % p ≠ 0 →
      (leValue x * leValue z ^ (p - 2) % p) * leValue z % p = leValue x % p) ∧
    (leValue z % p = 0 → leValue x * leValue z ^ (p - 2) % p = 0) := by
  have hlt : leValue x * leValue z ^ (p - 2) % p < p := Nat.mod_lt _ p_pos
  have hval : leValue (toAffine fpSpec x z) = leValue x * leValue z ^ (p - 2) % p := by
    rw [toAffine_fpSpec, leValue_toLE_of_lt hlt]
  refine ⟨toAffine_fpSpec x z, ?_, hval, hlt, ?_, ?_, ?_⟩
  · rw [toAffine_fpSpec]; exact toLE_isKey _
  · intro r hr hreq
    rw [hval, ← hreq, Nat.mod_eq_of_lt hr]
  · intro hz
    rw [Nat.mod_mul_mod, mul_assoc, ← pow_succ, show p - 2 + 1 = p - 1 from by decide,
      Nat.mul_mod, fermat_nat _ hz, mul_one, Nat.mod_mod]
  · intro hz
    have h0 : leValue z ^ (p - 2) % p = 0 :=
      Nat.mod_eq_zero_of_dvd (dvd_pow (Nat.dvd_of_mod_eq_zero hz) (by decide))
    rw [Nat.mul_mod, h0, mul_zero, Nat.zero_mod]

theorem fe_toLE_mod (n : Nat) : fe (toLE (n % p)) = (n : ZMod p) := by
  unfold fe
  rw [leValue_toLE_mod, ZMod.natCast_mod]

theorem fe_fpAdd (x y : Elt) : fe (fpAdd x y) = fe x + fe y := by
  unfold fpAdd
  rw [fe_toLE_mod]
  simp [fe]

theorem fe_fpMul (x y : Elt) : fe (fpMul x y) = fe x * fe y := by
  unfold fpMul
  rw [fe_toLE_mod]
  simp [fe]

theorem fe_fpSub (x y : Elt) : fe (fpSub x y) = fe x - fe y := by
  unfold fpSub
  rw [fe_toLE_mod, Nat.cast_add, Nat.cast_sub (Nat.le_of_lt (Nat.mod_lt _ p_pos)),
    ZMod.natCast_self, ZMod.natCast_mod]
  simp [fe]
  ring

theorem fe_toLE_of_lt {n : Nat} (h : n < p) : fe (toLE n) = (n : ZMod p) := by
  unfold fe
  rw [leValue_toLE_of_lt h]

theorem fe_fpOne : fe fpOne = 1 := by
  unfold fpOne
  rw [fe_toLE_of_lt (by decide)]
  simp

theorem fe_a24 : fe a24 = 39081 := by
  unfold a24
  rw [fe_toLE_of_lt (by decide)]
  simp

theorem fe_zeroElt : fe zeroElt = 0 := by
  have : leValue zeroElt = 0 := by decide
  simp [fe, this]

theorem fe_ladderStepSpec_zero (w : W) :
    fe (ladderStepSpec w 0).w0 = fe w.w0 ∧
    fe (ladderStepSpec w 0).w1 = dblX (fe w.w1) (fe w.w2) ∧
    fe (ladderStepSpec w 0).w2 = dblZ (fe w.w1) (fe w.w2) ∧
    fe (ladderStepSpec w 0).w3 = dadX (fe w.w1) (fe w.w2) (fe w.w3) (fe w.w4) ∧
    fe (ladderStepSpec w 0).w4 = dadZ (fe w.w0) (fe w.w1) (fe w.w2) (fe w.w3) (fe w.w4) := by
  simp only [ladderStepSpec, cswap, if_true, fe_fpMul, fe_fpAdd, fe_fpSub, fe_a24, dblX, dblZ,
    dadX, dadZ]
  refine ⟨trivial, ?_, ?_, ?_, ?_⟩ <;> ring

theorem fe_ladderStepSpec_one (w : W) :
    fe (ladderStepSpec w 1).w0 = fe w.w0 ∧
    fe (ladderStepSpec w 1).w1 = dblX (fe w.w3) (fe w.w4) ∧
    fe (ladderStepSpec w 1).w2 = dblZ (fe w.w3) (fe w.w4) ∧
    fe (ladderStepSpec w 1).w3 = dadX (fe w.w3) (fe w.w4) (fe w.w1) (fe w.w2) ∧
    fe (ladderStepSpec w 1).w4 = dadZ (fe w.w0) (fe w.w3) (fe w.w4) (fe w.w1) (fe w.w2) := by
  simp only [ladderStepSpec, cswap, one_ne_zero, if_false, fe_fpMul, fe_fpAdd, fe_fpSub, fe_a24,
    dblX, dblZ, dadX, dadZ]
  refine ⟨trivial, ?_, ?_, ?_, ?_⟩ <;> ring

theorem curve_eq {A x y : F} (h : (montCurve A).Nonsingular x y) :
    y ^ 2 = x ^ 3 + A * x ^ 2 + x := by
  have h1 := (Affine.equation_iff _ x y).1 h.1
  simp only [montCurve] at h1
  linear_combination h1

theorem negY_eq {A : F} (x y : F) : (montCurve A).negY x y = -y := by
  simp [Affine.negY, montCurve]

theorem rep_zero {A : F} {X Z : F} : Rep (A := A) X Z 0 ↔ Z = 0 ∧ X ≠ 0 := Iff.rfl

theorem rep_some {A : F} {X Z x y : F} (h : (montCurve A).Nonsingular x y) :
    Rep X Z (Affine.Point.some h) ↔ Z ≠ 0 ∧ X = x * Z := Iff.rfl

theorem rep_double {A a24 : F} (hA : A ^ 2 ≠ 4) (h2 : (2 : F) ≠ 0) (ha24 : 4 * a24 = A - 2)
    {X Z : F} {R : (montCurve A).Point} (h : Rep X Z R) :
    Rep ((X + Z) ^ 2 * (X - Z) ^ 2)
      (((X + Z) ^ 2 - (X - Z) ^ 2) * ((X + Z) ^ 2 + a24 * ((X + Z) ^ 2 - (X - Z) ^ 2)))
      (R + R) := by
  have hZ' : ∀ X Z : F, ((X + Z) ^ 2 - (X - Z) ^ 2) * ((X + Z) ^ 2 + a24 * ((X + Z) ^ 2 - (X - Z) ^ 2))
      = 4 * X * Z * (X ^ 2 + A * X * Z + Z ^ 2) := by
    intro X Z
    linear_combination (4 * X * Z * (X * Z)) * ha24
  rw [hZ']
  have h4 : (4 : F) ≠ 0 := by
    have : (4 : F) = 2 * 2 := by norm_num
    rw [this]; exact mul_ne_zero h2 h2
  rcases R with _ | ⟨hns⟩
  · obtain ⟨hZ, hX⟩ := h
    show Rep _ _ (0 + 0)
    rw [add_zero]
    subst hZ
    refine ⟨by ring, ?_⟩
    have : (X + 0) ^ 2 * (X - 0) ^ 2 = X ^ 4 := by ring
    rw [this]
    exact pow_ne_zero _ hX
  · rename_i x y
    obtain ⟨hZ, hX⟩ := h
    have hc := curve_eq hns
    by_cases hy : y = 0
    · have hadd : Affine.Point.some hns + Affine.Point.some hns = 0 :=
        Affine.Point.add_self_of_Y_eq (by rw [negY_eq, hy, neg_zero])
      rw [hadd]
      subst hX
      refine ⟨?_, ?_⟩
      · have : 4 * (x * Z) * Z * ((x * Z) ^ 2 + A * (x * Z) * Z + Z ^ 2) = 4 * Z ^ 4 * y ^ 2 := by
          rw [hc]; ring
        rw [this, hy]; ring
      · have : (x * Z + Z) ^ 2 * (x * Z - Z) ^ 2 = Z ^ 4 * (x ^ 2 - 1) ^ 2 := by ring
        rw [this]
        refine mul_ne_zero (pow_ne_zero _ hZ) (pow_ne_zero _ ?_)
        intro hx1
        have hx2 : x ^ 2 = 1 := by linear_combination hx1
        have hx0 : x ≠ 0 := by
          rintro rfl
          norm_num at hx2
        have hq : x ^ 2 + A * x + 1 = 0 := by
          have : x * (x ^ 2 + A * x + 1) = 0 := by
            rw [hy] at hc; linear_combination -hc
          exact (mul_eq_zero.1 this).resolve_left hx0
        apply hA
        linear_combination (A * x - 2) * hq - (A * x - 2) * hx2 - A ^ 2 * hx2
    · have hyn : y ≠ (montCurve A).negY x y := by
        rw [negY_eq]
        intro h
        apply hy
        have : 2 * y = 0 := by linear_combination h
        exact (mul_eq_zero.1 this).resolve_left h2
      rw [Affine.Point.add_self_of_Y_ne hyn, rep_some]
      subst hX
      have hyy : y - -y ≠ 0 := by
        rw [sub_neg_eq_add]
        intro h
        apply hy
        have : 2 * y = 0 := by linear_combination h
        exact (mul_eq_zero.1 this).resolve_left h2
      refine ⟨?_, ?_⟩
      · have : 4 * (x * Z) * Z * ((x * Z) ^ 2 + A * (x * Z) * Z + Z ^ 2) = 4 * Z ^ 4 * y ^ 2 := by
          rw [hc]; ring
        rw [this]
        exact mul_ne_zero (mul_ne_zero h4 (pow_ne_zero _ hZ)) (pow_ne_zero _ hy)
      · have hL : (montCurve A).slope x x y y * (2 * y) = 3 * x ^ 2 + 2 * A * x + 1 := by
          have hden : y - (montCurve A).negY x y = 2 * y := by rw [negY_eq]; ring
          rw [Affine.slope_of_Y_ne rfl hyn, hden, div_mul_cancel₀ _ (mul_ne_zero h2 hy)]
          simp only [montCurve]
          ring
        generalize (montCurve A).slope x x y y = L at hL
        simp only [Affine.addX, montCurve]
        linear_combination (-Z ^ 4 * (L * (2 * y) + (3 * x ^ 2 + 2 * A * x + 1))) * hL
          + (4 * Z ^ 4 * L ^ 2) * hc

theorem add_some_x_ne {A : F} {x0 y0 xr yr : F} (h0 : (montCurve A).Nonsingular x0 y0)
    (hr : (montCurve A).Nonsingular xr yr) (hx : x0 ≠ xr) :
    ∃ xs ys, ∃ hs : (montCurve A).Nonsingular xs ys,
      Affine.Point.some h0 + Affine.Point.some hr = Affine.Point.some hs ∧
      xs * (x0 - xr) ^ 2 = (y0 - yr) ^ 2 - (A + x0 + xr) * (x0 - xr) ^ 2 := by
  refine ⟨_, _, _, Affine.Point.add_of_X_ne hx, ?_⟩
  have hd : x0 - xr ≠ 0 := sub_ne_zero.2 hx
  rw [Affine.slope_of_X_ne hx]
  simp only [Affine.addX, montCurve]
  field_simp
  ring

theorem some_x_eq {A : F} {x y x' y' : F} {h : (montCurve A).Nonsingular x y}
    {h' : (montCurve A).Nonsingular x' y'}
    (e : Affine.Point.some h = Affine.Point.some h') : x = x' ∧ y = y' := by
  cases e
  exact ⟨rfl, rfl⟩

theorem rep_diffadd_aux {A : F} (h2 : (2 : F) ≠ 0) {x1 y1 : F}
    (hP : (montCurve A).Nonsingular x1 y1) (hx1 : x1 ≠ 0) {X2 Z2 X3 Z3 : F}
    {R0 R1 : (montCurve A).Point} (h0 : Rep X2 Z2 R0) (h1 : Rep X3 Z3 R1)
    (hd : R1 = R0 + Affine.Point.some hP) :
    Rep (4 * (X2 * X3 - Z2 * Z3) ^ 2) (x1 * (4 * (X2 * Z3 - X3 * Z2) ^ 2)) (R0 + R1) := by
  have h4 : (4 : F) ≠ 0 := by
    have : (4 : F) = 2 * 2 := by norm_num
    rw [this]; exact mul_ne_zero h2 h2
  rcases R0 with _ | ⟨h0ns⟩
  · -- R0 = 0, R1 = P
    have hR1 : R1 = Affine.Point.some hP := by rw [hd]; exact zero_add _
    subst hR1
    obtain ⟨hZ2, hX2⟩ := h0
    obtain ⟨hZ3, hX3⟩ := h1
    show Rep _ _ (0 + Affine.Point.some hP)
    rw [zero_add, rep_some]
    subst hZ2 hX3
    refine ⟨?_, by ring⟩
    have : x1 * (4 * (X2 * Z3 - x1 * Z3 * 0) ^ 2) = x1 * 4 * X2 ^ 2 * Z3 ^ 2 := by ring
    rw [this]
    exact mul_ne_zero (mul_ne_zero (mul_ne_zero hx1 h4) (pow_ne_zero _ hX2)) (pow_ne_zero _ hZ3)
  · rename_i x0 y0
    obtain ⟨hZ2, hX2⟩ := h0
    have hc0 := curve_eq h0ns
    have hc1 := curve_eq hP
    rcases R1 with _ | ⟨hrns⟩
    · -- R1 = 0, so P = -R0
      obtain ⟨hZ3, hX3⟩ := h1
      have hx : x0 = x1 := by
        by_contra hne
        have h := hd
        rw [Affine.Point.add_of_X_ne hne] at h
        exact Affine.Point.some_ne_zero _ h.symm
      show Rep _ _ (Affine.Point.some h0ns + 0)
      rw [add_zero, rep_some]
      subst hZ3 hX2 hx
      refine ⟨?_, by ring⟩
      have : x0 * (4 * (x0 * Z2 * 0 - X3 * Z2) ^ 2) = x0 * 4 * X3 ^ 2 * Z2 ^ 2 := by ring
      rw [this]
      exact mul_ne_zero (mul_ne_zero (mul_ne_zero hx1 h4) (pow_ne_zero _ hX3)) (pow_ne_zero _ hZ2)
    · rename_i xr yr
      obtain ⟨hZ3, hX3⟩ := h1
      have hcr := curve_eq hrns
      have hPeq : Affine.Point.some hP = Affine.Point.some hrns + -Affine.Point.some h0ns := by
        rw [hd]; abel
      rw [Affine.Point.neg_some] at hPeq
      subst hX2 hX3
      by_cases hx : x0 = xr
      · subst hx
        -- same x-coordinate: R1 = -R0
        have hyr : yr = -y0 := by
          have hsq : (yr - y0) * (yr + y0) = 0 := by linear_combination hcr - hc0
          rcases mul_eq_zero.1 hsq with h | h
          · exfalso
            have hy : yr = y0 := by linear_combination h
            subst hy
            have : Affine.Point.some hP = 0 := by
              have := hd
              exact self_eq_add_right.1 this
            exact Affine.Point.some_ne_zero _ this
          · linear_combination h
        subst hyr
        have hsum : Affine.Point.some h0ns + Affine.Point.some hrns = 0 :=
          Affine.Point.add_of_Y_eq rfl (by rw [negY_eq, neg_neg])
        rw [hsum, rep_zero]
        refine ⟨by ring, ?_⟩
        have : 4 * (x0 * Z2 * (x0 * Z3) - Z2 * Z3) ^ 2 = 4 * Z2 ^ 2 * Z3 ^ 2 * (x0 ^ 2 - 1) ^ 2 := by
          ring
        rw [this]
        refine mul_ne_zero (mul_ne_zero (mul_ne_zero h4 (pow_ne_zero _ hZ2)) (pow_ne_zero _ hZ3))
          (pow_ne_zero _ ?_)
        intro hx0
        by_cases hy0 : y0 = 0
        · have hz : Affine.Point.some hrns + Affine.Point.some (Affine.nonsingular_neg h0ns) = 0 :=
            Affine.Point.add_of_Y_eq rfl (by rw [Affine.negY_negY, hy0, neg_zero])
          rw [hz] at hPeq
          exact Affine.Point.some_ne_zero _ hPeq
        · have hyne : -y0 ≠ (montCurve A).negY x0 ((montCurve A).negY x0 y0) := by
            rw [Affine.negY_negY]
            intro h
            apply hy0
            have : 2 * y0 = 0 := by linear_combination -h
            exact (mul_eq_zero.1 this).resolve_left h2
          rw [Affine.Point.add_of_Y_ne hyne] at hPeq
          obtain ⟨hxe, -⟩ := some_x_eq hPeq
          have hL : (montCurve A).slope x0 x0 (-y0) ((montCurve A).negY x0 y0) * (-(2 * y0))
              = 3 * x0 ^ 2 + 2 * A * x0 + 1 := by
            have hden : -y0 - (montCurve A).negY x0 (-y0) = -(2 * y0) := by rw [negY_eq]; ring
            rw [Affine.slope_of_Y_ne rfl hyne, hden,
              div_mul_cancel₀ _ (neg_ne_zero.2 (mul_ne_zero h2 hy0))]
            simp only [montCurve]
            ring
          generalize (montCurve A).slope x0 x0 (-y0) ((montCurve A).negY x0 y0) = L at hL hxe
          apply hx1
          have h0 : x1 * (4 * y0 ^ 2) = 0 := by
            rw [hxe]
            simp only [Affine.addX, montCurve]
            linear_combination (L * (-(2 * y0)) + (3 * x0 ^ 2 + 2 * A * x0 + 1)) * hL
              - 4 * (A + 2 * x0) * hc0 + (x0 ^ 2 - 1) * hx0
          exact (mul_eq_zero.1 h0).resolve_right (mul_ne_zero h4 (pow_ne_zero _ hy0))
      · obtain ⟨xs, ys, hs, hsum, hxs⟩ := add_some_x_ne h0ns hrns hx
        rw [hsum, rep_some]
        obtain ⟨xq, yq, hq, hsum2, hxq⟩ :=
          add_some_x_ne hrns (Affine.nonsingular_neg h0ns) (Ne.symm hx)
        rw [hsum2] at hPeq
        obtain ⟨hxe, -⟩ := some_x_eq hPeq
        subst hxe
        rw [negY_eq] at hxq
        have hd0 : x0 - xr ≠ 0 := sub_ne_zero.2 hx
        refine ⟨?_, ?_⟩
        · have : x1 * (4 * (x0 * Z2 * Z3 - xr * Z3 * Z2) ^ 2)
              = x1 * 4 * Z2 ^ 2 * Z3 ^ 2 * (x0 - xr) ^ 2 := by ring
          rw [this]
          exact mul_ne_zero (mul_ne_zero (mul_ne_zero (mul_ne_zero hx1 h4) (pow_ne_zero _ hZ2))
            (pow_ne_zero _ hZ3)) (pow_ne_zero _ hd0)
        · apply mul_right_cancel₀ (pow_ne_zero 2 hd0)
          linear_combination (4 * Z2 ^ 2 * Z3 ^ 2) *
            (-(x1 * (xr - x0) ^ 2) * hxs
              - ((y0 - yr) ^ 2 - (A + x0 + xr) * (x0 - xr) ^ 2) * hxq
              - (y0 ^ 2 + (x0 ^ 3 + A * x0 ^ 2 + x0) - 2 * yr ^ 2
                  - 2 * (A + x0 + xr) * (x0 - xr) ^ 2) * hc0
              - (yr ^ 2 + (xr ^ 3 + A * xr ^ 2 + xr) - 2 * (x0 ^ 3 + A * x0 ^ 2 + x0)
                  - 2 * (A + x0 + xr) * (x0 - xr) ^ 2) * hcr)

theorem rep_diffadd {A : F} (h2 : (2 : F) ≠ 0) {x1 y1 : F}
    (hP : (montCurve A).Nonsingular x1 y1) (hx1 : x1 ≠ 0) {X2 Z2 X3 Z3 : F}
    {R0 R1 : (montCurve A).Point} (h0 : Rep X2 Z2 R0) (h1 : Rep X3 Z3 R1)
    (hd : R1 = R0 + Affine.Point.some hP ∨ R0 = R1 + Affine.Point.some hP) :
    Rep (((X3 - Z3) * (X2 + Z2) + (X3 + Z3) * (X2 - Z2)) ^ 2)
      (x1 * ((X3 - Z3) * (X2 + Z2) - (X3 + Z3) * (X2 - Z2)) ^ 2) (R0 + R1) := by
  rcases hd with hd | hd
  · have h := rep_diffadd_aux h2 hP hx1 h0 h1 hd
    have e1 : ((X3 - Z3) * (X2 + Z2) + (X3 + Z3) * (X2 - Z2)) ^ 2
        = 4 * (X2 * X3 - Z2 * Z3) ^ 2 := by ring
    have e2 : x1 * ((X3 - Z3) * (X2 + Z2) - (X3 + Z3) * (X2 - Z2)) ^ 2
        = x1 * (4 * (X2 * Z3 - X3 * Z2) ^ 2) := by ring
    rw [e1, e2]; exact h
  · have h := rep_diffadd_aux h2 hP hx1 h1 h0 hd
    have e1 : ((X3 - Z3) * (X2 + Z2) + (X3 + Z3) * (X2 - Z2)) ^ 2
        = 4 * (X3 * X2 - Z3 * Z2) ^ 2 := by ring
    have e2 : x1 * ((X3 - Z3) * (X2 + Z2) - (X3 + Z3) * (X2 - Z2)) ^ 2
        = x1 * (4 * (X3 * Z2 - X2 * Z3) ^ 2) := by ring
    rw [e1, e2, add_comm R0 R1]; exact h

theorem natCast_ne_zero_of_mod {n : Nat} (h : n % p ≠ 0) : ((n : Nat) : ZMod p) ≠ 0 := by
  rw [Ne, ZMod.natCast_zmod_eq_zero_iff_dvd, Nat.dvd_iff_mod_eq_zero]
  exact h

theorem two_ne_zero_p : (2 : ZMod p) ≠ 0 := by
  have h := natCast_ne_zero_of_mod (n := 2) (by decide)
  simpa using h

theorem curveA_sq_ne : (156326 : ZMod p) ^ 2 ≠ 4 := by
  have h := natCast_ne_zero_of_mod (n := 24437818272) (by decide)
  intro h4
  apply h
  have : ((24437818272 : Nat) : ZMod p) = (156326 : ZMod p) ^ 2 - 4 := by norm_num
  rw [this, h4, sub_self]

theorem a24_eq : (4 : ZMod p) * 39081 = 156326 - 2 := by norm_num

theorem rep_dbl {X Z : ZMod p} {R : curve448.Point} (h : Rep X Z R) :
    Rep (dblX X Z) (dblZ X Z) (R + R) :=
  rep_double curveA_sq_ne two_ne_zero_p a24_eq h

theorem rep_dad {x1 y1 : ZMod p} (hP : curve448.Nonsingular x1 y1) (hx1 : x1 ≠ 0)
    {X2 Z2 X3 Z3 : ZMod p} {R0 R1 : curve448.Point} (h0 : Rep X2 Z2 R0) (h1 : Rep X3 Z3 R1)
    (hd : R1 = R0 + Affine.Point.some hP ∨ R0 = R1 + Affine.Point.some hP) :
    Rep (dadX X2 Z2 X3 Z3) (dadZ x1 X2 Z2 X3 Z3) (R0 + R1) :=
  rep_diffadd two_ne_zero_p hP hx1 h0 h1 hd

theorem ladderInv_step {x1 y1 : ZMod p} (hP : curve448.Nonsingular x1 y1) (hx1 : x1 ≠ 0)
    (n flag bit : Nat) (hflag : flag ≤ 1) (hbit : bit ≤ 1) (w : W)
    (h : LadderInv fe (Affine.Point.some hP) x1 n flag w) :
    LadderInv fe (Affine.Point.some hP) x1 (2 * n + bit) bit (ladderStepSpec w (flag ^^^ bit)) := by
  obtain ⟨hw0, hrep⟩ := h
  have hsucc : (n + 1) • Affine.Point.some hP = n • Affine.Point.some hP + Affine.Point.some hP :=
    succ_nsmul _ _
  have e2n : n • Affine.Point.some hP + n • Affine.Point.some hP
      = (2 * n) • Affine.Point.some hP := by rw [← add_nsmul]; congr 1; ring
  have e2n1 : n • Affine.Point.some hP + (n + 1) • Affine.Point.some hP
      = (2 * n + 1) • Affine.Point.some hP := by rw [← add_nsmul]; congr 1; ring
  have e2n1' : (n + 1) • Affine.Point.some hP + n • Affine.Point.some hP
      = (2 * n + 1) • Affine.Point.some hP := by rw [← add_nsmul]; congr 1; ring
  have e2n2 : (n + 1) • Affine.Point.some hP + (n + 1) • Affine.Point.some hP
      = (2 * n + 1 + 1) • Affine.Point.some hP := by rw [← add_nsmul]; congr 1; ring
  interval_cases flag <;> interval_cases bit
  · obtain ⟨h12, h34⟩ := hrep
    obtain ⟨e0, e1, e2, e3, e4⟩ := fe_ladderStepSpec_zero w
    refine ⟨by rw [show (0 ^^^ 0 : Nat) = 0 from rfl, e0, hw0], ?_⟩
    rw [if_pos rfl, show (0 ^^^ 0 : Nat) = 0 from rfl, e1, e2, e3, e4, hw0, add_zero, ← e2n, ← e2n1]
    exact ⟨rep_dbl h12, rep_dad hP hx1 h12 h34 (Or.inl hsucc)⟩
  · obtain ⟨h12, h34⟩ := hrep
    obtain ⟨e0, e1, e2, e3, e4⟩ := fe_ladderStepSpec_one w
    refine ⟨by rw [show (0 ^^^ 1 : Nat) = 1 from rfl, e0, hw0], ?_⟩
    rw [if_neg one_ne_zero, show (0 ^^^ 1 : Nat) = 1 from rfl, e1, e2, e3, e4, hw0, ← e2n2,
      ← e2n1']
    exact ⟨rep_dbl h34, rep_dad hP hx1 h34 h12 (Or.inr hsucc)⟩
  · obtain ⟨h12, h34⟩ := hrep
    obtain ⟨e0, e1, e2, e3, e4⟩ := fe_ladderStepSpec_one w
    refine ⟨by rw [show (1 ^^^ 0 : Nat) = 1 from rfl, e0, hw0], ?_⟩
    rw [if_pos rfl, show (1 ^^^ 0 : Nat) = 1 from rfl, e1, e2, e3, e4, hw0, add_zero, ← e2n,
      ← e2n1]
    exact ⟨rep_dbl h34, rep_dad hP hx1 h34 h12 (Or.inl hsucc)⟩
  · obtain ⟨h12, h34⟩ := hrep
    obtain ⟨e0, e1, e2, e3, e4⟩ := fe_ladderStepSpec_zero w
    refine ⟨by rw [show (1 ^^^ 1 : Nat) = 0 from rfl, e0, hw0], ?_⟩
    rw [if_neg one_ne_zero, show (1 ^^^ 1 : Nat) = 0 from rfl, e1, e2, e3, e4, hw0, ← e2n2,
      ← e2n1']
    exact ⟨rep_dbl h12, rep_dad hP hx1 h12 h34 (Or.inr hsucc)⟩

theorem div_pow_succ_step (K m : Nat) :
    K / 2 ^ m = 2 * (K / 2 ^ (m + 1)) + K / 2 ^ m % 2 := by
  rw [pow_succ, ← Nat.div_div_eq_div_mul]; omega

theorem leValue_lt (k : List Nat) (hb : ∀ b ∈ k, b < 256) : leValue k < 256 ^ k.length := by
  induction k with
  | nil => simp [leValue]
  | cons b bs ih =>
    have h1 : b < 256 := hb b (by simp)
    have h2 := ih (fun c hc => hb c (by simp [hc]))
    simp only [leValue, List.length_cons, pow_succ]
    omega

theorem montBit_eq (k : Key) (hk : IsKey k) (s : Nat) (hs : s ≤ 447) :
    montBit k s = leValue k / 2 ^ s % 2 := by
  obtain ⟨hlen, hb⟩ := hk
  have hlen56 : k.length = 56 := hlen
  unfold montBit
  rw [readBit_eq k hb _ _ (by unfold montByteIndex; omega) (by unfold montBitIndex; omega)]
  unfold montByteIndex montBitIndex
  rw [Nat.div_add_mod]

theorem montLoop_inv (H : Helpers) (hL : H.ladderStep = ladderStepSpec) (k : Key) (hk : IsKey k)
    {x1 y1 : ZMod p} (hP : curve448.Nonsingular x1 y1) (hx1 : x1 ≠ 0) (m : Nat) (hm : m ≤ 448)
    (st : LoopState) (hfl : st.flag ≤ 1)
    (hst : LadderInv fe (Affine.Point.some hP) x1 (leValue k / 2 ^ m) st.flag st.w) :
    ((List.range m).reverse.foldl (montBody H k) st).flag ≤ 1 ∧
    LadderInv fe (Affine.Point.some hP) x1 (leValue k)
      ((List.range m).reverse.foldl (montBody H k) st).flag
      ((List.range m).reverse.foldl (montBody H k) st).w ∧
    (0 < m → ((List.range m).reverse.foldl (montBody H k) st).flag = leValue k % 2) := by
  induction m generalizing st with
  | zero =>
    simp only [List.range_zero, List.reverse_nil, List.foldl_nil, pow_zero, Nat.div_one] at hst ⊢
    exact ⟨hfl, hst, fun h => absurd h (lt_irrefl 0)⟩
  | succ m ih =>
    rw [List.range_succ, List.reverse_append, List.reverse_singleton, List.singleton_append,
      List.foldl_cons]
    have hbit : montBit k m = leValue k / 2 ^ m % 2 := montBit_eq k hk m (by omega)
    have hb1 : montBit k m ≤ 1 := by rw [hbit]; omega
    have hstep : LadderInv fe (Affine.Point.some hP) x1 (leValue k / 2 ^ m) (montBody H k st m).flag
        (montBody H k st m).w := by
      have h := ladderInv_step hP hx1 _ _ _ hfl hb1 st.w hst
      rw [hbit, ← div_pow_succ_step] at h
      simp only [montBody, hL, hbit]
      exact h
    have hfl1 : (montBody H k st m).flag ≤ 1 := hb1
    obtain ⟨r1, r2, r3⟩ := ih (by omega) (montBody H k st m) hfl1 hstep
    refine ⟨r1, r2, fun _ => ?_⟩
    rcases Nat.eq_zero_or_pos m with h0 | h0
    · subst h0
      simp only [List.range_zero, List.reverse_nil, List.foldl_nil]
      show montBit k 0 = _
      rw [hbit, pow_zero, Nat.div_one]
    · exact r3 h0

theorem pow_p_sub_two (z : ZMod p) (hz : z ≠ 0) : z * z ^ (p - 2) = 1 := by
  rw [← pow_succ', show p - 2 + 1 = p - 1 from by decide]
  exact ZMod.pow_card_sub_one_eq_one hz

theorem rep_out {X Z : ZMod p} {R : curve448.Point} (h : Rep X Z R) :
    X * Z ^ (p - 2) = xOut R := by
  rcases R with _ | ⟨hns⟩
  · obtain ⟨hZ, -⟩ := h
    rw [hZ, zero_pow (by decide), mul_zero]
    rfl
  · obtain ⟨hZ, hX⟩ := h
    rw [hX, mul_assoc, pow_p_sub_two _ hZ, mul_one]
    rfl

theorem toAffine_val (x z : Elt) :
    toAffine fpSpec x z = toLE (ZMod.val (fe x * fe z ^ (p - 2))) := by
  have h : fe x * fe z ^ (p - 2) = ((leValue x * leValue z ^ (p - 2) % p : Nat) : ZMod p) := by
    rw [ZMod.natCast_mod, Nat.cast_mul, Nat.cast_pow]
    rfl
  rw [toAffine_fpSpec, h, ZMod.val_natCast, Nat.mod_mod]

/-- With the field and the ladder step modelled from the spec, `ladderMontgomery` on an
even scalar `k` and the x-coordinate of an affine point `P` with non-zero x-coordinate
writes the encoding of the x-coordinate of `k • P` (zero for the point at infinity). -/
theorem ladderMontgomery_point (H : Helpers) (hF : H.toFp = fpSpec)
    (hL : H.ladderStep = ladderStepSpec) (k : Key) (hk : IsKey k) (heven : leValue k % 2 = 0)
    {x1 y1 : ZMod p} (hP : curve448.Nonsingular x1 y1) (hx1 : x1 ≠ 0) (xP : Key)
    (hxP : fe xP = x1) :
    ladderMontgomery H k xP = toLE (ZMod.val (xOut (leValue k • Affine.Point.some hP))) := by
  have hone : H.one = fpOne := congrArg Fp.one hF
  have hK : leValue k / 2 ^ 448 = 0 := by
    have h := leValue_lt k hk.2
    rw [hk.1] at h
    exact Nat.div_eq_of_lt (lt_of_lt_of_le h (by decide))
  have hinit : LadderInv fe (Affine.Point.some hP) x1 (leValue k / 2 ^ 448) (montInit H xP).flag
      (montInit H xP).w := by
    rw [hK]
    refine ⟨hxP, ?_⟩
    simp only [montInit, if_true, zero_nsmul, zero_add, one_nsmul, hone, zeroW]
    refine ⟨?_, ?_⟩
    · rw [fe_fpOne, fe_zeroElt]
      exact ⟨rfl, one_ne_zero⟩
    · rw [fe_fpOne, hxP]
      exact ⟨one_ne_zero, (mul_one _).symm⟩
  obtain ⟨-, hinv, hflag⟩ := montLoop_inv H hL k hk hP hx1 448 le_rfl (montInit H xP)
    (by simp [montInit]) hinit
  have hflag0 := hflag (by decide)
  rw [heven] at hflag0
  obtain ⟨-, hrep⟩ := hinv
  rw [hflag0, if_pos rfl] at hrep
  simp only [ladderMontgomery, ladderMontgomeryRun, montLoop, hF]
  rw [toAffine_val, rep_out hrep.1]

theorem fe_ladderStepSpec_ne (w : W) (b : Nat) (hb : b ≠ 0) :
    fe (ladderStepSpec w b).w0 = fe w.w0 ∧
    fe (ladderStepSpec w b).w1 = dblX (fe w.w3) (fe w.w4) ∧
    fe (ladderStepSpec w b).w2 = dblZ (fe w.w3) (fe w.w4) ∧
    fe (ladderStepSpec w b).w3 = dadX (fe w.w3) (fe w.w4) (fe w.w1) (fe w.w2) ∧
    fe (ladderStepSpec w b).w4 = dadZ (fe w.w0) (fe w.w3) (fe w.w4) (fe w.w1) (fe w.w2) := by
  simp only [ladderStepSpec, cswap, if_neg hb, fe_fpMul, fe_fpAdd, fe_fpSub, fe_a24,
    dblX, dblZ, dadX, dadZ]
  refine ⟨trivial, ?_, ?_, ?_, ?_⟩ <;> ring

theorem dblZ_eq (X Z : ZMod p) : dblZ X Z = 4 * X * Z * (X ^ 2 + 156326 * X * Z + Z ^ 2) := by
  unfold dblZ; ring

theorem dblX_eq (X Z : ZMod p) : dblX X Z = (X ^ 2 - Z ^ 2) ^ 2 := by
  unfold dblX; ring

theorem dadX_eq (X2 Z2 X3 Z3 : ZMod p) : dadX X2 Z2 X3 Z3 = 4 * (X2 * X3 - Z2 * Z3) ^ 2 := by
  unfold dadX; ring

theorem dadZ_eq (x1 X2 Z2 X3 Z3 : ZMod p) :
    dadZ x1 X2 Z2 X3 Z3 = x1 * (4 * (X2 * Z3 - X3 * Z2) ^ 2) := by
  unfold dadZ; ring

theorem zeroInv_step (w : W) (b : Nat) (h : ZeroInv w) :
    ZeroInv (ladderStepSpec w b) ∧ fe (ladderStepSpec w b).w2 = 0 := by
  obtain ⟨h0, h12, h34⟩ := h
  by_cases hb : b = 0
  · subst hb
    obtain ⟨e0, -, e2, -, e4⟩ := fe_ladderStepSpec_zero w
    have hz2 : fe (ladderStepSpec w 0).w2 = 0 := by
      rw [e2, dblZ_eq, mul_assoc 4, h12]; ring
    have hz4 : fe (ladderStepSpec w 0).w4 = 0 := by
      rw [e4, dadZ_eq, h0, zero_mul]
    exact ⟨⟨by rw [e0, h0], by rw [hz2, mul_zero], by rw [hz4, mul_zero]⟩, hz2⟩
  · obtain ⟨e0, -, e2, -, e4⟩ := fe_ladderStepSpec_ne w b hb
    have hz2 : fe (ladderStepSpec w b).w2 = 0 := by
      rw [e2, dblZ_eq, mul_assoc 4, h34]; ring
    have hz4 : fe (ladderStepSpec w b).w4 = 0 := by
      rw [e4, dadZ_eq, h0, zero_mul]
    exact ⟨⟨by rw [e0, h0], by rw [hz2, mul_zero], by rw [hz4, mul_zero]⟩, hz2⟩

theorem zeroInv_loop (H : Helpers) (hL : H.ladderStep = ladderStepSpec) (k : Key)
    (l : List Nat) (st : LoopState) (h : ZeroInv st.w) :
    ZeroInv (l.foldl (montBody H k) st).w ∧
      (l ≠ [] → fe (l.foldl (montBody H k) st).w.w2 = 0) := by
  induction l using List.reverseRecOn with
  | nil => exact ⟨h, fun hne => absurd rfl hne⟩
  | append_singleton l s ih =>
    rw [List.foldl_append, List.foldl_cons, List.foldl_nil]
    have hs := zeroInv_step (l.foldl (montBody H k) st).w
      ((l.foldl (montBody H k) st).flag ^^^ montBit k s) ih.1
    simp only [montBody, hL]
    exact ⟨hs.1, fun _ => hs.2⟩

theorem ladderMontgomery_zero (H : Helpers) (hF : H.toFp = fpSpec)
    (hL : H.ladderStep = ladderStepSpec) (k xP : Key) (hxP : fe xP = 0) :
    ladderMontgomery H k xP = toLE 0 := by
  have hinit : ZeroInv (montInit H xP).w := by
    simp only [montInit, ZeroInv, zeroW]
    exact ⟨hxP, by rw [fe_zeroElt, mul_zero], by rw [hxP, zero_mul]⟩
  have h := (zeroInv_loop H hL k (List.range 448).reverse (montInit H xP) hinit).2 (by decide)
  simp only [ladderMontgomery, ladderMontgomeryRun, montLoop, hF]
  rw [toAffine_val, h, zero_pow (by decide), mul_zero, ZMod.val_zero]

theorem four_ne_zero_p : (4 : ZMod p) ≠ 0 := by
  have : (4 : ZMod p) = 2 * 2 := by norm_num
  rw [this]; exact mul_ne_zero two_ne_zero_p two_ne_zero_p

theorem unit_ne_zero {e : ZMod p} (he : e ^ 2 = 1) : e ≠ 0 := by
  rintro rfl
  norm_num at he

theorem dbl_kindP {e X Z : ZMod p} (he : e ^ 2 = 1) (h : KindP e X Z) :
    KindT (dblX X Z) (dblZ X Z) := by
  obtain ⟨hZ, hX⟩ := h
  subst hX
  refine ⟨?_, ?_⟩
  · have h1 : dblZ (e * Z) Z = 4 * e * Z ^ 4 * (2 + 156326 * e) := by
      rw [dblZ_eq]; linear_combination (4 * e * Z ^ 4) * he
    rw [h1]
    refine mul_ne_zero (mul_ne_zero (mul_ne_zero four_ne_zero_p (unit_ne_zero he))
      (pow_ne_zero _ hZ)) ?_
    intro h2
    apply curveA_sq_ne
    linear_combination (156326 * e - 2) * h2 - 156326 ^ 2 * he
  · rw [dblX_eq]; linear_combination (Z ^ 4 * (e ^ 2 - 1)) * he

theorem dbl_kindO {X Z : ZMod p} (h : KindO X Z) : KindO (dblX X Z) (dblZ X Z) := by
  obtain ⟨hZ, hX⟩ := h
  subst hZ
  refine ⟨by rw [dblZ_eq]; ring, ?_⟩
  have : dblX X 0 = X ^ 4 := by rw [dblX_eq]; ring
  rw [this]; exact pow_ne_zero _ hX

theorem dbl_kindT {X Z : ZMod p} (h : KindT X Z) : KindO (dblX X Z) (dblZ X Z) := by
  obtain ⟨hZ, hX⟩ := h
  subst hX
  refine ⟨by rw [dblZ_eq]; ring, ?_⟩
  have : dblX 0 Z = Z ^ 4 := by rw [dblX_eq]; ring
  rw [this]; exact pow_ne_zero _ hZ

theorem dad_kind {e X2 Z2 X3 Z3 : ZMod p} (he : e ^ 2 = 1) (h2 : KindP e X2 Z2)
    (h3 : KindO X3 Z3 ∨ KindT X3 Z3) :
    KindP e (dadX X2 Z2 X3 Z3) (dadZ e X2 Z2 X3 Z3) ∧
    KindP e (dadX X3 Z3 X2 Z2) (dadZ e X3 Z3 X2 Z2) := by
  obtain ⟨hZ2, hX2⟩ := h2
  subst hX2
  have he0 := unit_ne_zero he
  rcases h3 with ⟨hZ3, hX3⟩ | ⟨hZ3, hX3⟩
  · subst hZ3
    have hz : dadZ e (e * Z2) Z2 X3 0 = e * 4 * X3 ^ 2 * Z2 ^ 2 := by rw [dadZ_eq]; ring
    have hz' : dadZ e X3 0 (e * Z2) Z2 = e * 4 * X3 ^ 2 * Z2 ^ 2 := by rw [dadZ_eq]; ring
    have hne : e * 4 * X3 ^ 2 * Z2 ^ 2 ≠ 0 :=
      mul_ne_zero (mul_ne_zero (mul_ne_zero he0 four_ne_zero_p) (pow_ne_zero _ hX3))
        (pow_ne_zero _ hZ2)
    refine ⟨⟨by rw [hz]; exact hne, ?_⟩, ⟨by rw [hz']; exact hne, ?_⟩⟩
    · rw [hz, dadX_eq]; ring
    · rw [hz', dadX_eq]; ring
  · subst hX3
    have hz : dadZ e (e * Z2) Z2 0 Z3 = e ^ 3 * 4 * Z3 ^ 2 * Z2 ^ 2 := by rw [dadZ_eq]; ring
    have hz' : dadZ e 0 Z3 (e * Z2) Z2 = e ^ 3 * 4 * Z3 ^ 2 * Z2 ^ 2 := by rw [dadZ_eq]; ring
    have hne : e ^ 3 * 4 * Z3 ^ 2 * Z2 ^ 2 ≠ 0 :=
      mul_ne_zero (mul_ne_zero (mul_ne_zero (pow_ne_zero _ he0) four_ne_zero_p)
        (pow_ne_zero _ hZ3)) (pow_ne_zero _ hZ2)
    refine ⟨⟨by rw [hz]; exact hne, ?_⟩, ⟨by rw [hz']; exact hne, ?_⟩⟩
    · rw [hz, dadX_eq]; linear_combination (-(4 * Z3 ^ 2 * Z2 ^ 2) * (e ^ 2 + 1)) * he
    · rw [hz', dadX_eq]; linear_combination (-(4 * Z3 ^ 2 * Z2 ^ 2) * (e ^ 2 + 1)) * he

theorem unitInv_step {e : ZMod p} (he : e ^ 2 = 1) (w : W) (b : Nat) (h : UnitInv e w) :
    UnitInv e (ladderStepSpec w b) ∧
      (KindO (fe (ladderStepSpec w b).w1) (fe (ladderStepSpec w b).w2) ∨
        KindT (fe (ladderStepSpec w b).w1) (fe (ladderStepSpec w b).w2)) := by
  obtain ⟨h0, hk⟩ := h
  have key : ∀ X2 Z2 X3 Z3 : ZMod p,
      ((KindP e X2 Z2 ∧ (KindO X3 Z3 ∨ KindT X3 Z3)) ∨
        ((KindO X2 Z2 ∨ KindT X2 Z2) ∧ KindP e X3 Z3)) →
      (KindO (dblX X2 Z2) (dblZ X2 Z2) ∨ KindT (dblX X2 Z2) (dblZ X2 Z2)) ∧
        KindP e (dadX X2 Z2 X3 Z3) (dadZ e X2 Z2 X3 Z3) := by
    intro X2 Z2 X3 Z3 hk
    rcases hk with ⟨hp, ho⟩ | ⟨ho, hp⟩
    · exact ⟨Or.inr (dbl_kindP he hp), (dad_kind he hp ho).1⟩
    · refine ⟨?_, (dad_kind he hp ho).2⟩
      rcases ho with ho | ho
      · exact Or.inl (dbl_kindO ho)
      · exact Or.inl (dbl_kindT ho)
  by_cases hb : b = 0
  · subst hb
    obtain ⟨e0, e1, e2, e3, e4⟩ := fe_ladderStepSpec_zero w
    rw [e1, e2]
    unfold UnitInv
    rw [e0, e1, e2, e3, e4, h0]
    have := key _ _ _ _ hk
    exact ⟨⟨rfl, Or.inr this⟩, this.1⟩
  · obtain ⟨e0, e1, e2, e3, e4⟩ := fe_ladderStepSpec_ne w b hb
    rw [e1, e2]
    unfold UnitInv
    rw [e0, e1, e2, e3, e4, h0]
    have := key (fe w.w3) (fe w.w4) (fe w.w1) (fe w.w2) (Or.symm (hk.imp And.symm And.symm))
    exact ⟨⟨rfl, Or.inr this⟩, this.1⟩

theorem unitInv_loop {e : ZMod p} (he : e ^ 2 = 1) (H : Helpers)
    (hL : H.ladderStep = ladderStepSpec) (k : Key) (l : List Nat) (st : LoopState)
    (h : UnitInv e st.w) :
    UnitInv e (l.foldl (montBody H k) st).w ∧
      (l ≠ [] → KindO (fe (l.foldl (montBody H k) st).w.w1) (fe (l.foldl (montBody H k) st).w.w2)
        ∨ KindT (fe (l.foldl (montBody H k) st).w.w1) (fe (l.foldl (montBody H k) st).w.w2)) := by
  induction l using List.reverseRecOn with
  | nil => exact ⟨h, fun hne => absurd rfl hne⟩
  | append_singleton l s ih =>
    rw [List.foldl_append, List.foldl_cons, List.foldl_nil]
    have hs := unitInv_step he (l.foldl (montBody H k) st).w
      ((l.foldl (montBody H k) st).flag ^^^ montBit k s) ih.1
    simp only [montBody, hL]
    exact ⟨hs.1, fun _ => hs.2⟩

theorem ladderMontgomery_unit {e : ZMod p} (he : e ^ 2 = 1) (H : Helpers)
    (hF : H.toFp = fpSpec) (hL : H.ladderStep = ladderStepSpec) (k xP : Key)
    (hxP : fe xP = e) : ladderMontgomery H k xP = toLE 0 := by
  have hone : H.one = fpOne := congrArg Fp.one hF
  have hinit : UnitInv e (montInit H xP).w := by
    simp only [montInit, UnitInv, zeroW, hone]
    refine ⟨hxP, Or.inr ⟨Or.inl ?_, ?_⟩⟩
    · rw [fe_fpOne, fe_zeroElt]; exact ⟨rfl, one_ne_zero⟩
    · rw [fe_fpOne, hxP]; exact ⟨one_ne_zero, (mul_one _).symm⟩
  have h := (unitInv_loop he H hL k (List.range 448).reverse (montInit H xP) hinit).2
    (by decide)
  simp only [ladderMontgomery, ladderMontgomeryRun, montLoop, hF]
  rw [toAffine_val]
  rcases h with ⟨hZ, -⟩ | ⟨-, hX⟩
  · rw [hZ, zero_pow (by decide), mul_zero, ZMod.val_zero]
  · rw [hX, zero_mul, ZMod.val_zero]

theorem fe_generatorG : fe generatorG = 5 := by
  have : leValue generatorG = 5 := by decide
  simp [fe, this]

theorem generator_nonsingular : curve448.Nonsingular (5 : ZMod p) (generatorY : ZMod p) := by
  have hy : ((generatorY : Nat) : ZMod p) ≠ 0 := natCast_ne_zero_of_mod (by decide)
  have heq : ((generatorY * generatorY : Nat) : ZMod p)
      = ((5 ^ 3 + 156326 * 5 ^ 2 + 5 : Nat) : ZMod p) := by
    rw [ZMod.natCast_eq_natCast_iff']
    decide
  rw [Affine.nonsingular_iff', Affine.equation_iff]
  simp only [curve448, montCurve]
  refine ⟨?_, Or.inr ?_⟩
  · push_cast at heq
    linear_combination heq
  · intro h
    apply hy
    have h2 : 2 * (generatorY : ZMod p) = 0 := by linear_combination h
    exact (mul_eq_zero.1 h2).resolve_left two_ne_zero_p

theorem fe_toLE_val (v : ZMod p) : fe (toLE (ZMod.val v)) = v := by
  rw [fe_toLE_of_lt (ZMod.val_lt v), ZMod.natCast_zmod_val]

theorem order_two_of_x_zero {y : ZMod p} (h : curve448.Nonsingular 0 y) (j : Nat) :
    (2 * j) • Affine.Point.some h = 0 := by
  have hc := curve_eq h
  have hy : y = 0 := by
    have : y ^ 2 = 0 := by rw [hc]; ring
    exact pow_eq_zero_iff (by decide) |>.1 this
  have h2 : Affine.Point.some h + Affine.Point.some h = 0 :=
    Affine.Point.add_self_of_Y_eq (by rw [curve448, negY_eq, hy, neg_zero])
  rw [mul_nsmul, two_nsmul, h2, nsmul_zero]

/-- With the field and the ladder step modelled from the spec, `ladderMontgomery` on an
even scalar `k` and the encoding of a point `Q` writes the encoding of `k • Q`. -/
theorem ladderMontgomery_smul (H : Helpers) (hF : H.toFp = fpSpec)
    (hL : H.ladderStep = ladderStepSpec) (k : Key) (hk : IsKey k) (heven : leValue k % 2 = 0)
    (Q : curve448.Point) (xP : Key) (hxP : fe xP = xOut Q) :
    ladderMontgomery H k xP = toLE (ZMod.val (xOut (leValue k • Q))) := by
  rcases Q with _ | ⟨hns⟩
  · have h0 : leValue k • (Affine.Point.zero : curve448.Point) = 0 := nsmul_zero _
    rw [ladderMontgomery_zero H hF hL k xP hxP, h0]
    show toLE 0 = toLE (ZMod.val (0 : ZMod p))
    rw [ZMod.val_zero]
  · rename_i x y
    by_cases hx : x = 0
    · subst hx
      have h0 : leValue k • Affine.Point.some hns = 0 := by
        have hk2 : leValue k = 2 * (leValue k / 2) := by omega
        rw [hk2]
        exact order_two_of_x_zero hns _
      rw [ladderMontgomery_zero H hF hL k xP hxP, h0]
      show toLE 0 = toLE (ZMod.val (0 : ZMod p))
      rw [ZMod.val_zero]
    · exact ladderMontgomery_point H hF hL k hk heven hns hx xP hxP

theorem clamped_even (k : Key) (hk : IsClamped k) : leValue k % 2 = 0 := by
  obtain ⟨⟨hlen, -⟩, h4, -⟩ := hk
  match k, hlen, h4 with
  | [], hlen, _ => simp [Size] at hlen
  | b :: bs, _, h4 =>
    simp only [List.getD_cons_zero] at h4
    simp only [leValue]
    omega

/-- Claim C1: with the field arithmetic and the ladder step modelled from the spec, for
all clamped 56-byte scalars `k1`, `k2` and the generator x-coordinate 5,
`ladderMontgomery(k1, ladderMontgomery(k2, G))` and
`ladderMontgomery(k2, ladderMontgomery(k1, G))` leave the same 56 bytes. -/
theorem C1_diffie_hellman_commutes (H : Helpers) (hF : H.toFp = fpSpec)
    (hL : H.ladderStep = ladderStepSpec) (k1 k2 : Key) (h1 : IsClamped k1)
    (h2 : IsClamped k2) :
    ladderMontgomery H k1 (ladderMontgomery H k2 generatorG)
      = ladderMontgomery H k2 (ladderMontgomery H k1 generatorG) := by
  have hG : fe generatorG = xOut (Affine.Point.some generator_nonsingular) := fe_generatorG
  have e1 := clamped_even k1 h1
  have e2 := clamped_even k2 h2
  rw [ladderMontgomery_smul H hF hL k2 h2.1 e2 _ generatorG hG,
    ladderMontgomery_smul H hF hL k1 h1.1 e1 _ generatorG hG,
    ladderMontgomery_smul H hF hL k1 h1.1 e1 _ _ (fe_toLE_val _),
    ladderMontgomery_smul H hF hL k2 h2.1 e2 _ _ (fe_toLE_val _),
    smul_comm]

theorem fe_lowOrder0 : fe (lowOrderPoints.getD 0 []) = 0 := by
  have : leValue (lowOrderPoints.getD 0 []) = 0 := by decide
  unfold fe
  rw [this, Nat.cast_zero]

theorem fe_lowOrder1 : fe (lowOrderPoints.getD 1 []) = 1 := by
  have : leValue (lowOrderPoints.getD 1 []) = 1 := by decide
  unfold fe
  rw [this, Nat.cast_one]

theorem fe_lowOrder2 : fe (lowOrderPoints.getD 2 []) = -1 := by
  have : leValue (lowOrderPoints.getD 2 []) = p - 1 := by decide
  unfold fe
  rw [this, Nat.cast_sub (by decide), ZMod.natCast_self]
  simp

theorem toLE_zero : toLE 0 = lowOrderPoints.getD 0 [] := by decide

/-- Claim C3: with the field arithmetic and the ladder step modelled from the spec, for
every scalar `k` and every entry `xP` of `lowOrderPoints`, `ladderMontgomery(k, xP)` leaves
in `k` an entry of `lowOrderPoints` (always the first one, 56 zero bytes). -/
theorem C3_low_order_stays_low_order (H : Helpers) (hF : H.toFp = fpSpec)
    (hL : H.ladderStep = ladderStepSpec) (k xP : Key) (hxP : xP ∈ lowOrderPoints) :
    ladderMontgomery H k xP ∈ lowOrderPoints ∧
      ladderMontgomery H k xP = lowOrderPoints.getD 0 [] := by
  have hres : ladderMontgomery H k xP = toLE 0 := by
    have hmem : xP = lowOrderPoints.getD 0 [] ∨ xP = lowOrderPoints.getD 1 [] ∨
        xP = lowOrderPoints.getD 2 [] := by
      simpa [lowOrderPoints] using hxP
    rcases hmem with h | h | h
    · exact ladderMontgomery_zero H hF hL k xP (by rw [h]; exact fe_lowOrder0)
    · exact ladderMontgomery_unit (e := 1) (by norm_num) H hF hL k xP
        (by rw [h]; exact fe_lowOrder1)
    · exact ladderMontgomery_unit (e := -1) (by norm_num) H hF hL k xP
        (by rw [h]; exact fe_lowOrder2)
  rw [hres, toLE_zero]
  exact ⟨by simp [lowOrderPoints], rfl⟩

theorem C1_diffie_hellman_commutes_witness :
    montgomeryHelpers.toFp = fpSpec ∧ montgomeryHelpers.ladderStep = ladderStepSpec ∧
    IsClamped exampleScalar ∧ IsClamped exampleScalar2 ∧
    ladderMontgomery montgomeryHelpers exampleScalar
        (ladderMontgomery montgomeryHelpers exampleScalar2 generatorG)
      = ladderMontgomery montgomeryHelpers exampleScalar2
        (ladderMontgomery montgomeryHelpers exampleScalar generatorG) :=
  ⟨rfl, rfl, by decide, by decide,
    C1_diffie_hellman_commutes montgomeryHelpers rfl rfl exampleScalar exampleScalar2
      (by decide) (by decide)⟩

theorem C3_low_order_stays_low_order_witness :
    montgomeryHelpers.toFp = fpSpec ∧ montgomeryHelpers.ladderStep = ladderStepSpec ∧
    joyeS ∈ lowOrderPoints ∧
    ladderMontgomery montgomeryHelpers exampleScalar joyeS ∈ lowOrderPoints :=
  ⟨rfl, rfl, by decide,
    (C3_low_order_stays_low_order montgomeryHelpers rfl rfl exampleScalar joyeS (by decide)).1⟩

theorem C4_toAffine_canonical_quotient_witness :
    leValue exampleTwo % p ≠ 0 ∧
    (leValue generatorG * leValue exampleTwo ^ (p - 2) % p) * leValue exampleTwo % p
      = leValue generatorG % p :=
  ⟨by decide, (C4_toAffine_canonical_quotient generatorG exampleTwo).2.2.2.2.2.1 (by decide)⟩

theorem loopNat_add (x1 K a b lo flag : Nat) (s : NatState) :
    loopNat x1 K (b + a) lo flag s
      = loopNat x1 K b lo (loopNat x1 K a (lo + b) flag s).1 (loopNat x1 K a (lo + b) flag s).2 := by
  induction a generalizing flag s with
  | zero => rfl
  | succ a ih =>
    rw [← Nat.add_assoc]
    simp only [loopNat]
    rw [ih, Nat.add_assoc lo b a]

theorem leValue_a24 : leValue a24 = 39081 := by
  unfold a24
  exact leValue_toLE_of_lt (by decide)

theorem valW_ladderStepSpec (w : W) (b : Nat) :
    valW (ladderStepSpec w b) = stepNat (leValue w.w0) b (valW w) ∧
      (ladderStepSpec w b).w0 = w.w0 := by
  by_cases hb : b = 0
  · simp only [valW, ladderStepSpec, stepNat, cswap, hb, if_true, fpMul, fpAdd, fpSub,
      leValue_toLE_mod, leValue_a24, and_self]
  · simp only [valW, ladderStepSpec, stepNat, cswap, hb, if_false, fpMul, fpAdd, fpSub,
      leValue_toLE_mod, leValue_a24, and_self]

theorem montLoop_loopNat (H : Helpers) (hL : H.ladderStep = ladderStepSpec) (k : Key)
    (hk : IsKey k) (m : Nat) (hm : m ≤ 448) (st : LoopState) :
    (((List.range m).reverse.foldl (montBody H k) st).flag,
        valW ((List.range m).reverse.foldl (montBody H k) st).w)
      = loopNat (leValue st.w.w0) (leValue k) m 0 st.flag (valW st.w) := by
  induction m generalizing st with
  | zero => rfl
  | succ m ih =>
    rw [List.range_succ, List.reverse_append, List.reverse_singleton, List.singleton_append,
      List.foldl_cons, ih (by omega)]
    have hbit : montBit k m = leValue k / 2 ^ m % 2 := montBit_eq k hk m (by omega)
    have hs := valW_ladderStepSpec st.w (st.flag ^^^ montBit k m)
    simp only [loopNat, montBody, hL, Nat.zero_add]
    rw [hs.1, hs.2, hbit]

theorem rfc_chunk1 :
    loopNat (leValue rfcPoint) (leValue rfcScalar) 64 384 0 rfcState0 = (1, rfcState1) := by
  decide

theorem rfc_chunk2 :
    loopNat (leValue rfcPoint) (leValue rfcScalar) 64 320 1 rfcState1 = (0, rfcState2) := by
  decide

theorem rfc_chunk3 :
    loopNat (leValue rfcPoint) (leValue rfcScalar) 64 256 0 rfcState2 = (0, rfcState3) := by
  decide

theorem rfc_chunk4 :
    loopNat (leValue rfcPoint) (leValue rfcScalar) 64 192 0 rfcState3 = (1, rfcState4) := by
  decide

theorem rfc_chunk5 :
    loopNat (leValue rfcPoint) (leValue rfcScalar) 64 128 1 rfcState4 = (0, rfcState5) := by
  decide

theorem rfc_chunk6 :
    loopNat (leValue rfcPoint) (leValue rfcScalar) 64 64 0 rfcState5 = (1, rfcState6) := by
  decide

theorem rfc_chunk7 :
    loopNat (leValue rfcPoint) (leValue rfcScalar) 64 0 1 rfcState6 = (0, rfcState7) := by
  decide

theorem rfc_loop :
    loopNat (leValue rfcPoint) (leValue rfcScalar) 448 0 0 rfcState0 = (0, rfcState7) := by
  rw [show (448 : Nat) = 384 + 64 from rfl, loopNat_add, rfc_chunk1,
    show (384 : Nat) = 320 + 64 from rfl, loopNat_add, rfc_chunk2,
    show (320 : Nat) = 256 + 64 from rfl, loopNat_add, rfc_chunk3,
    show (256 : Nat) = 192 + 64 from rfl, loopNat_add, rfc_chunk4,
    show (192 : Nat) = 128 + 64 from rfl, loopNat_add, rfc_chunk5,
    show (128 : Nat) = 64 + 64 from rfl, loopNat_add, rfc_chunk6]
  exact rfc_chunk7

theorem mul_pow_mod_eq (x z : Nat) :
    x * z ^ (p - 2) % p = x * (powMod z (p - 2) p % p) % p := by
  rw [powMod_mod]
  conv_rhs => rw [Nat.mul_mod, Nat.mod_mod, ← Nat.mul_mod]

theorem ladderMontgomery_loopNat (H : Helpers) (hF : H.toFp = fpSpec)
    (hL : H.ladderStep = ladderStepSpec) (k xP : Key) (hk : IsKey k) (f : Nat) (s : NatState)
    (hloop : loopNat (leValue xP) (leValue k) 448 0 0 ⟨1, 0, leValue xP, 1⟩ = (f, s)) :
    ladderMontgomery H k xP = toLE (s.x2 * (powMod s.z2 (p - 2) p % p) % p) := by
  have hone : H.one = fpOne := congrArg Fp.one hF
  have h1 : leValue fpOne = 1 := leValue_toLE_of_lt (by decide)
  have h0 : leValue zeroElt = 0 := by decide
  have hinit : valW (montInit H xP).w = ⟨1, 0, leValue xP, 1⟩ := by
    simp only [valW, montInit, zeroW, hone, h1, h0]
  have h := montLoop_loopNat H hL k hk 448 le_rfl (montInit H xP)
  have hw0 : (montInit H xP).w.w0 = xP := rfl
  have hflag : (montInit H xP).flag = 0 := rfl
  rw [hinit, hw0, hflag, hloop] at h
  have hval := congrArg Prod.snd h
  simp only [valW] at hval
  have e1 := congrArg NatState.x2 hval
  have e2 := congrArg NatState.z2 hval
  simp only at e1 e2
  simp only [ladderMontgomery, ladderMontgomeryRun, montLoop, hF]
  rw [toAffine_fpSpec, e1, e2, mul_pow_mod_eq]

theorem rfc_isKey : IsKey rfcScalar := by decide

theorem rfc_quotient :
    rfcState7.x2 * (powMod rfcState7.z2 (p - 2) p % p) % p = leValue rfcOutput := by
  decide

theorem rfc_encode : toLE (leValue rfcOutput) = rfcOutput := by decide

/-- The ladder with the field arithmetic and the ladder step modelled from the spec
reproduces the first X448 test vector of RFC 7748, section 5.2. -/
theorem rfc7748_test_vector :
    ladderMontgomery montgomeryHelpers rfcScalar rfcPoint = rfcOutput :=
  (ladderMontgomery_loopNat montgomeryHelpers rfl rfl rfcScalar rfcPoint rfc_isKey _ _
    rfc_loop).trans (rfc_quotient ▸ rfc_encode)

theorem pointS_nonsingular : curve448.Nonsingular (-1 : ZMod p) (pointSY : ZMod p) := by
  have hy : ((pointSY : Nat) : ZMod p) ≠ 0 := natCast_ne_zero_of_mod (by decide)
  have heq : ((pointSY * pointSY : Nat) : ZMod p) = ((156324 : Nat) : ZMod p) := by
    rw [ZMod.natCast_eq_natCast_iff']
    decide
  rw [Affine.nonsingular_iff', Affine.equation_iff]
  simp only [curve448, montCurve]
  refine ⟨?_, Or.inr ?_⟩
  · push_cast at heq
    linear_combination heq
  · intro h
    apply hy
    have h2 : 2 * (pointSY : ZMod p) = 0 := by linear_combination h
    exact (mul_eq_zero.1 h2).resolve_left two_ne_zero_p

theorem joyeGS_eq_x_sub :
    xOut (Affine.Point.some generator_nonsingular - Affine.Point.some pointS_nonsingular)
      = fe joyeGS := by
  have h6 : ((6 : Nat) : ZMod p) ≠ 0 := natCast_ne_zero_of_mod (by decide)
  have hne : (5 : ZMod p) ≠ -1 := by
    intro h
    apply h6
    push_cast
    linear_combination h
  obtain ⟨xs, ys, hs, hsum, hxs⟩ := add_some_x_ne generator_nonsingular
    (Affine.nonsingular_neg pointS_nonsingular) hne
  rw [sub_eq_add_neg, Affine.Point.neg_some, hsum]
  show xs = fe joyeGS
  have hnum : (((leValue joyeGS * 36 + (156326 + 4) * 36 : Nat)) : ZMod p)
      = (((generatorY + pointSY) ^ 2 : Nat) : ZMod p) := by
    rw [ZMod.natCast_eq_natCast_iff']
    decide
  have h36 : (36 : ZMod p) ≠ 0 := by
    have : (36 : ZMod p) = ((6 : Nat) : ZMod p) * ((6 : Nat) : ZMod p) := by push_cast; norm_num
    rw [this]; exact mul_ne_zero h6 h6
  apply mul_right_cancel₀ h36
  rw [negY_eq] at hxs
  unfold fe
  push_cast at hnum
  linear_combination hxs - hnum

/-- Claim C7: the constant `ladderJoye` loads into `w[1]` encodes `p - 1` and is the third
entry of `lowOrderPoints`; the constant it loads into `w[3]` encodes an integer `t < p`
with `9*t^2 + 781638*t + 9 = 0 (mod p)`, and `t` is the x-coordinate of `G - S` for a
point `G` at `u = 5` and a point `S` at `u = -1` of `v^2 = u^3 + 156326*u^2 + u`. -/
theorem C7_joye_start_constants (H : Helpers) :
    (joyeInit H).w.w1 = joyeS ∧
    (joyeInit H).w.w3 = joyeGS ∧
    leValue joyeS = p - 1 ∧
    lowOrderPoints[2]? = some joyeS ∧
    leValue joyeGS < p ∧
    (9 * leValue joyeGS ^ 2 + 781638 * leValue joyeGS + 9) % p = 0 ∧
    (∃ (yG yS : ZMod p) (hG : curve448.Nonsingular 5 yG) (hS : curve448.Nonsingular (-1) yS),
      xOut (Affine.Point.some hG - Affine.Point.some hS) = ((leValue joyeGS : Nat) : ZMod p)) := by
  refine ⟨rfl, rfl, ?_, rfl, ?_, ?_, ?_⟩
  · decide
  · decide
  · decide
  · exact ⟨_, _, generator_nonsingular, pointS_nonsingular, joyeGS_eq_x_sub⟩

end X448

namespace ConditionalAccess

theorem run_trusted_ok (c : Client) (d : ResourceData) (hip : d.ip = true)
    (r : IPNamedLocation) (st : Nat) (hget : c.GetIP d.Id = (some r, st, none))
    (htr : r.IsTrusted = some true) (hupd : (c.UpdateIP (untrustProperties d)).2 = none) :
    (namedLocationResourceDelete c d).2
      = (countryThenDelete c d d.Id
          [Call.GetIP d.Id, Call.UpdateIP (untrustProperties d)]).2 := by
  unfold namedLocationResourceDelete
  rcases hU : c.UpdateIP (untrustProperties d) with ⟨s, e⟩
  rw [hU] at hupd
  simp only at hupd
  subst hupd
  simp only [untrustProperties] at hU
  simp [hip, hget, htr, hU, untrustProperties]

theorem run_trusted_err (c : Client) (d : ResourceData) (hip : d.ip = true)
    (r : IPNamedLocation) (st : Nat) (hget : c.GetIP d.Id = (some r, st, none))
    (htr : r.IsTrusted = some true) (e : String)
    (hupd : (c.UpdateIP (untrustProperties d)).2 = some e) :
    (namedLocationResourceDelete c d).2
      = [Call.GetIP d.Id, Call.UpdateIP (untrustProperties d)] := by
  unfold namedLocationResourceDelete
  rcases hU : c.UpdateIP (untrustProperties d) with ⟨s, e'⟩
  rw [hU] at hupd
  simp only at hupd
  subst hupd
  simp only [untrustProperties] at hU
  simp [hip, hget, htr, hU, untrustProperties]

theorem run_getip_err (c : Client) (d : ResourceData) (hip : d.ip = true)
    (resp : Option IPNamedLocation) (st : Nat) (e : String)
    (hget : c.GetIP d.Id = (resp, st, some e)) :
    (namedLocationResourceDelete c d).2 = [Call.GetIP d.Id] := by
  unfold namedLocationResourceDelete
  by_cases h : st = StatusNotFound <;> simp [hip, hget, h]

theorem deleteAndWait_trace (c : Client) (id : String) (tr : List Call) :
    ∃ post, (deleteAndWait c id tr).2 = tr ++ post := by
  unfold deleteAndWait
  rcases hD : c.Delete id with ⟨s, _ | e⟩
  · rcases hW : c.WaitForDeletion id with _ | e <;> simp [hW]
  · simp

theorem countryThenDelete_trace (c : Client) (d : ResourceData) (id : String) (tr : List Call) :
    ∃ post, (countryThenDelete c d id tr).2 = tr ++ post := by
  unfold countryThenDelete
  by_cases hc : d.country = true
  · rcases hG : c.GetCountry id with ⟨s, _ | e⟩
    · obtain ⟨post, hpost⟩ := deleteAndWait_trace c id (tr ++ [Call.GetCountry id])
      exact ⟨Call.GetCountry id :: post, by simp [hc, hG, hpost]⟩
    · by_cases h : s = StatusNotFound <;> simp [hc, hG, h]
  · obtain ⟨post, hpost⟩ := deleteAndWait_trace c id tr
    exact ⟨post, by simp [hc, hpost]⟩

/-- Claim C10: when `ip` is set and `GetIP` succeeds reporting `IsTrusted = true`, every
`client.Delete` call is made after an `UpdateIP` call for the same ID with
`IsTrusted = false`, and that call returned no error; when `GetIP` returns an error (with
any status) or that `UpdateIP` returns an error, `client.Delete` is never called. -/
theorem C10_untrust_before_delete (c : Client) (d : ResourceData) (hip : d.ip = true) :
    (∀ r st, c.GetIP d.Id = (some r, st, none) → r.IsTrusted = some true →
      ∀ pre post id, (namedLocationResourceDelete c d).2 = pre ++ Call.Delete id :: post →
        Call.UpdateIP { ID := some d.Id, IsTrusted := some false } ∈ pre ∧
        (c.UpdateIP { ID := some d.Id, IsTrusted := some false }).2 = none) ∧
    (∀ resp st e, c.GetIP d.Id = (resp, st, some e) →
      ∀ id, Call.Delete id ∉ (namedLocationResourceDelete c d).2) ∧
    (∀ r st e, c.GetIP d.Id = (some r, st, none) → r.IsTrusted = some true →
      (c.UpdateIP { ID := some d.Id, IsTrusted := some false }).2 = some e →
      ∀ id, Call.Delete id ∉ (namedLocationResourceDelete c d).2) := by
  refine ⟨?_, ?_, ?_⟩
  · intro r st hget htr pre post id hrun
    rcases hU : (c.UpdateIP (untrustProperties d)).2 with _ | e
    · refine ⟨?_, hU⟩
      rw [run_trusted_ok c d hip r st hget htr hU] at hrun
      obtain ⟨post2, hpost2⟩ := countryThenDelete_trace c d d.Id
        [Call.GetIP d.Id, Call.UpdateIP (untrustProperties d)]
      rw [hpost2] at hrun
      match pre, hrun with
      | [], h => simp at h
      | [a], h => simp at h
      | a :: b :: pre2, h =>
        simp only [List.cons_append, List.nil_append, List.cons.injEq] at h
        rw [← h.2.1]
        simp [untrustProperties]
    · rw [run_trusted_err c d hip r st hget htr e hU] at hrun
      match pre, hrun with
      | [], h => simp at h
      | [a], h => simp at h
      | a :: b :: pre2, h => simp at h
  · intro resp st e hget id
    rw [run_getip_err c d hip resp st e hget]
    simp
  · intro r st e hget htr hU id
    rw [run_trusted_err c d hip r st hget htr e hU]
    simp

theorem C10_untrust_before_delete_witness :
    (⟨"loc", true, false⟩ : ResourceData).ip = true ∧
    (namedLocationResourceDelete exampleClient ⟨"loc", true, false⟩).2
      = [Call.GetIP "loc", Call.UpdateIP { ID := some "loc", IsTrusted := some false }]
          ++ Call.Delete "loc" :: [Call.WaitForDeletion "loc"] ∧
    Call.UpdateIP { ID := some "loc", IsTrusted := some false }
      ∈ [Call.GetIP "loc", Call.UpdateIP { ID := some "loc", IsTrusted := some false }] :=
  ⟨rfl, by decide,
    ((C10_untrust_before_delete exampleClient ⟨"loc", true, false⟩ rfl).1
      { ID := some "loc", IsTrusted := some true } 200 rfl rfl
      [Call.GetIP "loc", Call.UpdateIP { ID := some "loc", IsTrusted := some false }]
      [Call.WaitForDeletion "loc"] "loc" (by decide)).1⟩

end ConditionalAccess
